import Mathlib

/-!
Verification development for the Percolation repository (src/Percolation.py).

The Python module implements a disjoint-set (union-find) engine with four
strategies (QuickUnion, WeightedQuickUnion, PathCompression, QuickFind), a
Board that maps 2-D grid positions to 1-D disjoint-set elements, and a
percolation test.  This file gives a shallow embedding of those classes and
proves (or refutes) the specification claims about them.

Conventions of the embedding:
* Elements of the network are the integers 1 .. space, where space = size ^ 2.
  The Python code stores a list self.roots and reads self.roots[n - 1] for
  element n; we model the list as a List Nat and the read as List.getD (n-1) 0.
* Unbounded Python while-loops (Find.find_root, PathCompression.path_compression)
  are modelled with an explicit fuel parameter; the value none models the loop
  still running after fuel steps.  The wrappers find_root / path_compression use
  fuel = roots.length, which is proved sufficient on every reachable state.
* Mutation is modelled by explicit state passing; methods that can diverge
  return Option.
-/

namespace Percolation

/-- Element indices of the network are 1 through space. -/
def InRange (space n : Nat) : Prop := 1 ≤ n ∧ n ≤ space

instance instDecInRange (space n : Nat) : Decidable (InRange space n) :=
  inferInstanceAs (Decidable (_ ∧ _))

/-- The stored parent pointer of element n: the Python read roots[n - 1]. -/
def parent (roots : List Nat) (n : Nat) : Nat := roots.getD (n - 1) 0

/-- Fuel-indexed model of the while loop in Find.find_root:
    while roots[n-1] != n: n = roots[n-1]; return n.
    The result none models the loop still running after fuel steps. -/
def findRootF (roots : List Nat) (fuel n : Nat) : Option Nat :=
  if parent roots n = n then some n
  else
    match fuel with
    | 0 => none
    | f + 1 => findRootF roots f (parent roots n)

/-- Find.find_root of the source, with the fuel that is proved sufficient on
    all reachable states (the chain of a terminating walk visits pairwise
    distinct elements of 1..space, so roots.length steps always suffice). -/
def find_root (roots : List Nat) (n : Nat) : Option Nat :=
  findRootF roots roots.length n

theorem findRootF_self {roots : List Nat} {n : Nat} (h : parent roots n = n) (fuel : Nat) :
    findRootF roots fuel n = some n := by
  unfold findRootF
  simp [h]

theorem findRootF_zero {roots : List Nat} {n : Nat} (h : parent roots n ≠ n) :
    findRootF roots 0 n = none := by
  unfold findRootF
  simp [h]

theorem findRootF_succ {roots : List Nat} {n : Nat} (h : parent roots n ≠ n) (f : Nat) :
    findRootF roots (f + 1) n = findRootF roots f (parent roots n) := by
  conv_lhs => unfold findRootF
  simp [h]

theorem findRootF_mono {roots : List Nat} :
    ∀ {f g n r : Nat}, f ≤ g → findRootF roots f n = some r → findRootF roots g n = some r := by
  intro f g
  induction g generalizing f with
  | zero =>
    intro n r hfg h
    have hf0 : f = 0 := Nat.le_zero.mp hfg
    subst hf0
    exact h
  | succ g ih =>
    intro n r hfg h
    by_cases hp : parent roots n = n
    · rw [findRootF_self hp] at h ⊢
      exact h
    · cases f with
      | zero => rw [findRootF_zero hp] at h; exact absurd h (by simp)
      | succ f =>
        rw [findRootF_succ hp] at h ⊢
        exact ih (Nat.succ_le_succ_iff.mp hfg) h

theorem findRootF_det {roots : List Nat} {f g n r s : Nat}
    (h1 : findRootF roots f n = some r) (h2 : findRootF roots g n = some s) : r = s := by
  have h1' := findRootF_mono (Nat.le_max_left f g) h1
  have h2' := findRootF_mono (Nat.le_max_right f g) h2
  rw [h1'] at h2'
  exact Option.some_inj.mp h2'

theorem findRootF_root {roots : List Nat} :
    ∀ {f n r : Nat}, findRootF roots f n = some r → parent roots r = r := by
  intro f
  induction f with
  | zero =>
    intro n r h
    by_cases hp : parent roots n = n
    · rw [findRootF_self hp] at h
      cases h
      exact hp
    · rw [findRootF_zero hp] at h
      cases h
  | succ f ih =>
    intro n r h
    by_cases hp : parent roots n = n
    · rw [findRootF_self hp] at h
      cases h
      exact hp
    · rw [findRootF_succ hp] at h
      exact ih h

/-- All parent pointers of valid elements are themselves valid elements. -/
def RangeClosed (space : Nat) (roots : List Nat) : Prop :=
  ∀ n, InRange space n → InRange space (parent roots n)

theorem findRootF_inRange {space : Nat} {roots : List Nat} (hrc : RangeClosed space roots) :
    ∀ {f n r : Nat}, InRange space n → findRootF roots f n = some r → InRange space r := by
  intro f
  induction f with
  | zero =>
    intro n r hn h
    by_cases hp : parent roots n = n
    · rw [findRootF_self hp] at h
      cases h
      exact hn
    · rw [findRootF_zero hp] at h
      cases h
  | succ f ih =>
    intro n r hn h
    by_cases hp : parent roots n = n
    · rw [findRootF_self hp] at h
      cases h
      exact hn
    · rw [findRootF_succ hp] at h
      exact ih (hrc n hn) h

theorem findRootF_iterate {roots : List Nat} :
    ∀ {f n r : Nat}, findRootF roots f n = some r →
      ∃ k, k ≤ f ∧ (parent roots)^[k] n = r := by
  intro f
  induction f with
  | zero =>
    intro n r h
    by_cases hp : parent roots n = n
    · rw [findRootF_self hp] at h
      cases h
      exact ⟨0, Nat.le_refl 0, rfl⟩
    · rw [findRootF_zero hp] at h
      cases h
  | succ f ih =>
    intro n r h
    by_cases hp : parent roots n = n
    · rw [findRootF_self hp] at h
      cases h
      exact ⟨0, Nat.zero_le _, rfl⟩
    · rw [findRootF_succ hp] at h
      obtain ⟨k, hk, hit⟩ := ih h
      refine ⟨k + 1, Nat.succ_le_succ hk, ?_⟩
      rw [Function.iterate_succ_apply]
      exact hit

theorem findRootF_of_iterate {roots : List Nat} :
    ∀ {f k n : Nat}, k ≤ f →
      parent roots ((parent roots)^[k] n) = (parent roots)^[k] n →
      ∃ r, findRootF roots f n = some r := by
  intro f
  induction f with
  | zero =>
    intro k n hk hfix
    have hk0 : k = 0 := Nat.le_zero.mp hk
    subst hk0
    simp only [Function.iterate_zero, id] at hfix
    exact ⟨n, findRootF_self hfix 0⟩
  | succ f ih =>
    intro k n hk hfix
    by_cases hp : parent roots n = n
    · exact ⟨n, findRootF_self hp _⟩
    · cases k with
      | zero =>
        simp only [Function.iterate_zero, id] at hfix
        exact absurd hfix hp
      | succ k =>
        rw [Function.iterate_succ_apply] at hfix
        obtain ⟨r, hr⟩ := ih (Nat.succ_le_succ_iff.mp hk) hfix
        exact ⟨r, by rw [findRootF_succ hp]; exact hr⟩

theorem iterate_inRange {space : Nat} {roots : List Nat} (hrc : RangeClosed space roots)
    {n : Nat} (hn : InRange space n) : ∀ k, InRange space ((parent roots)^[k] n) := by
  intro k
  induction k with
  | zero => simpa using hn
  | succ k ih =>
    rw [Function.iterate_succ_apply']
    exact hrc _ ih

/-- Pigeonhole bound: if some iterate of the parent map starting at a valid
    element is a fixed point, then a fixed point is already reached strictly
    within space steps (the minimal walk visits pairwise distinct elements
    of 1..space). -/
theorem fix_within_space {space : Nat} {roots : List Nat} (hrc : RangeClosed space roots)
    {n : Nat} (hn : InRange space n)
    (hterm : ∃ k, parent roots ((parent roots)^[k] n) = (parent roots)^[k] n) :
    ∃ k, k < space ∧ parent roots ((parent roots)^[k] n) = (parent roots)^[k] n := by
  classical
  let P : Nat → Prop := fun k => parent roots ((parent roots)^[k] n) = (parent roots)^[k] n
  have hP : ∃ k, P k := hterm
  let k0 := Nat.find hP
  have hk0 : P k0 := Nat.find_spec hP
  have hmin : ∀ j, j < k0 → ¬ P j := fun j hj => Nat.find_min hP hj
  refine ⟨k0, ?_, hk0⟩
  -- injectivity of j ↦ iterate j on range (k0+1)
  have hinj : Set.InjOn (fun j => (parent roots)^[j] n) (Finset.range (k0 + 1) : Finset Nat) := by
    intro a ha b hb hab0
    have hab : (parent roots)^[a] n = (parent roots)^[b] n := hab0
    simp only [Finset.coe_range, Set.mem_Iio] at ha hb
    by_contra hne
    rcases Nat.lt_or_ge a b with hlt | hge
    · have hb' : b ≤ k0 := Nat.lt_succ_iff.mp hb
      have : P (k0 - b + a) := by
        have h1 : (parent roots)^[k0 - b + a] n = (parent roots)^[k0 - b] ((parent roots)^[a] n) :=
          Function.iterate_add_apply _ _ _ _
        have h2 : (parent roots)^[k0 - b] ((parent roots)^[b] n) = (parent roots)^[k0] n := by
          rw [← Function.iterate_add_apply]
          congr 1
          omega
        show parent roots ((parent roots)^[k0 - b + a] n) = (parent roots)^[k0 - b + a] n
        rw [h1, hab, h2]
        exact hk0
      exact hmin _ (by omega) this
    · have hlt : b < a := Nat.lt_of_le_of_ne hge (fun h => hne h.symm)
      have ha' : a ≤ k0 := Nat.lt_succ_iff.mp ha
      have : P (k0 - a + b) := by
        have h1 : (parent roots)^[k0 - a + b] n = (parent roots)^[k0 - a] ((parent roots)^[b] n) :=
          Function.iterate_add_apply _ _ _ _
        have h2 : (parent roots)^[k0 - a] ((parent roots)^[a] n) = (parent roots)^[k0] n := by
          rw [← Function.iterate_add_apply]
          congr 1
          omega
        show parent roots ((parent roots)^[k0 - a + b] n) = (parent roots)^[k0 - a + b] n
        rw [h1, ← hab, h2]
        exact hk0
      exact hmin _ (by omega) this
  have hmaps : ∀ j ∈ (Finset.range (k0 + 1)), (parent roots)^[j] n ∈ Finset.Icc 1 space := by
    intro j _
    have := iterate_inRange hrc hn j
    simpa [InRange, Finset.mem_Icc] using this
  have hcard := Finset.card_le_card_of_injOn (fun j => (parent roots)^[j] n) hmaps hinj
  rw [Finset.card_range, Nat.card_Icc] at hcard
  omega

/-- Termination of the find_root walk from element n, with some amount of fuel. -/
def Terminates (roots : List Nat) (n : Nat) : Prop :=
  ∃ f, (findRootF roots f n).isSome

/-- Invariant carried by the QuickUnion-family strategies: the roots list has
    the right length, parent pointers stay in range, and every find_root walk
    terminates. -/
def UFInv (space : Nat) (roots : List Nat) : Prop :=
  roots.length = space ∧ RangeClosed space roots ∧ ∀ n, InRange space n → Terminates roots n

theorem UFInv_find_root_some {space : Nat} {roots : List Nat} (hInv : UFInv space roots)
    {n : Nat} (hn : InRange space n) : ∃ r, find_root roots n = some r := by
  obtain ⟨hlen, hrc, hterm⟩ := hInv
  obtain ⟨f, hf⟩ := hterm n hn
  obtain ⟨r, hr⟩ := Option.isSome_iff_exists.mp hf
  obtain ⟨k, _, hit⟩ := findRootF_iterate hr
  have hfixk : parent roots ((parent roots)^[k] n) = (parent roots)^[k] n := by
    rw [hit]; exact findRootF_root hr
  obtain ⟨k0, hk0lt, hk0fix⟩ := fix_within_space hrc hn ⟨k, hfixk⟩
  have := @findRootF_of_iterate roots roots.length k0 n (by omega) hk0fix
  exact this

/-- Under the invariant, a find_root walk from a valid element reaches a fixed
    point within space steps. -/
theorem UFInv_fix_within {space : Nat} {roots : List Nat} (hInv : UFInv space roots)
    {n : Nat} (hn : InRange space n) :
    ∃ k, k ≤ space ∧ parent roots ((parent roots)^[k] n) = (parent roots)^[k] n := by
  obtain ⟨hlen, hrc, hterm⟩ := hInv
  obtain ⟨f, hf⟩ := hterm n hn
  obtain ⟨r, hr⟩ := Option.isSome_iff_exists.mp hf
  obtain ⟨k, _, hit⟩ := findRootF_iterate hr
  have hfixk : parent roots ((parent roots)^[k] n) = (parent roots)^[k] n := by
    rw [hit]; exact findRootF_root hr
  obtain ⟨k0, hk0lt, hk0fix⟩ := fix_within_space hrc hn ⟨k, hfixk⟩
  exact ⟨k0, Nat.le_of_lt hk0lt, hk0fix⟩

/-- The list of elements visited by the find_root walk from n (n first, the
    final root last), with the same fuel discipline as findRootF. -/
def chainF (roots : List Nat) (fuel n : Nat) : Option (List Nat) :=
  if parent roots n = n then some [n]
  else
    match fuel with
    | 0 => none
    | f + 1 => (chainF roots f (parent roots n)).map (List.cons n)

theorem chainF_self {roots : List Nat} {n : Nat} (h : parent roots n = n) (fuel : Nat) :
    chainF roots fuel n = some [n] := by
  unfold chainF
  simp [h]

theorem chainF_zero {roots : List Nat} {n : Nat} (h : parent roots n ≠ n) :
    chainF roots 0 n = none := by
  unfold chainF
  simp [h]

theorem chainF_succ {roots : List Nat} {n : Nat} (h : parent roots n ≠ n) (f : Nat) :
    chainF roots (f + 1) n = (chainF roots f (parent roots n)).map (List.cons n) := by
  conv_lhs => unfold chainF
  simp [h]

theorem chainF_mono {roots : List Nat} :
    ∀ {f g n : Nat} {l : List Nat}, f ≤ g → chainF roots f n = some l →
      chainF roots g n = some l := by
  intro f g
  induction g generalizing f with
  | zero =>
    intro n l hfg h
    have hf0 : f = 0 := Nat.le_zero.mp hfg
    subst hf0
    exact h
  | succ g ih =>
    intro n l hfg h
    by_cases hp : parent roots n = n
    · rw [chainF_self hp] at h ⊢
      exact h
    · cases f with
      | zero => rw [chainF_zero hp] at h; exact absurd h (by simp)
      | succ f =>
        rw [chainF_succ hp] at h ⊢
        obtain ⟨l', hl', rfl⟩ := Option.map_eq_some'.mp h
        rw [ih (Nat.succ_le_succ_iff.mp hfg) hl']
        rfl

theorem chainF_det {roots : List Nat} {f g n : Nat} {l m : List Nat}
    (h1 : chainF roots f n = some l) (h2 : chainF roots g n = some m) : l = m := by
  have h1' := chainF_mono (Nat.le_max_left f g) h1
  have h2' := chainF_mono (Nat.le_max_right f g) h2
  rw [h1'] at h2'
  exact Option.some_inj.mp h2'

theorem chainF_cons {roots : List Nat} :
    ∀ {f n : Nat} {l : List Nat}, chainF roots f n = some l → ∃ t, l = n :: t := by
  intro f n l h
  by_cases hp : parent roots n = n
  · rw [chainF_self hp] at h
    cases h
    exact ⟨[], rfl⟩
  · cases f with
    | zero => rw [chainF_zero hp] at h; exact absurd h (by simp)
    | succ f =>
      rw [chainF_succ hp] at h
      obtain ⟨l', _, rfl⟩ := Option.map_eq_some'.mp h
      exact ⟨l', rfl⟩

/-- Every element of the visited chain starts its own (shorter) chain. -/
theorem chainF_mem_chain {roots : List Nat} :
    ∀ {f n : Nat} {l : List Nat}, chainF roots f n = some l →
      ∀ {x : Nat}, x ∈ l →
        ∃ g m, g ≤ f ∧ chainF roots g x = some m ∧ m.length ≤ l.length ∧
          (x = n ∨ m.length < l.length) := by
  intro f
  induction f with
  | zero =>
    intro n l h x hx
    by_cases hp : parent roots n = n
    · rw [chainF_self hp] at h
      cases h
      simp only [List.mem_singleton] at hx
      subst hx
      exact ⟨0, [x], Nat.le_refl 0, chainF_self hp 0, Nat.le_refl 1, Or.inl rfl⟩
    · rw [chainF_zero hp] at h
      cases h
  | succ f ih =>
    intro n l h x hx
    by_cases hp : parent roots n = n
    · rw [chainF_self hp] at h
      cases h
      simp only [List.mem_singleton] at hx
      subst hx
      exact ⟨f + 1, [x], Nat.le_refl _, chainF_self hp _, Nat.le_refl 1, Or.inl rfl⟩
    · rw [chainF_succ hp] at h
      obtain ⟨l', hl', rfl⟩ := Option.map_eq_some'.mp h
      rcases List.mem_cons.mp hx with hxn | hxl'
      · subst hxn
        exact ⟨f + 1, x :: l', Nat.le_refl _, by rw [chainF_succ hp, hl']; rfl,
          Nat.le_refl _, Or.inl rfl⟩
      · obtain ⟨g, m, hg, hm, hlen, _⟩ := ih hl' hxl'
        exact ⟨g, m, Nat.le_succ_of_le hg, hm,
          Nat.le_succ_of_le hlen, Or.inr (Nat.lt_succ_of_le hlen)⟩

/-- A terminating find_root walk never revisits an element. -/
theorem chainF_nodup {roots : List Nat} :
    ∀ {f n : Nat} {l : List Nat}, chainF roots f n = some l → l.Nodup := by
  intro f
  induction f with
  | zero =>
    intro n l h
    by_cases hp : parent roots n = n
    · rw [chainF_self hp] at h
      cases h
      simp
    · rw [chainF_zero hp] at h
      cases h
  | succ f ih =>
    intro n l h
    by_cases hp : parent roots n = n
    · rw [chainF_self hp] at h
      cases h
      simp
    · rw [chainF_succ hp] at h
      obtain ⟨l', hl', rfl⟩ := Option.map_eq_some'.mp h
      refine List.nodup_cons.mpr ⟨?_, ih hl'⟩
      intro hmem
      obtain ⟨g, m, hg, hm, hlen, _⟩ := chainF_mem_chain hl' hmem
      have hm' := chainF_mono (Nat.le_succ_of_le hg) hm
      have : m = n :: l' := chainF_det hm' (by rw [chainF_succ hp, hl']; rfl)
      subst this
      simp at hlen

theorem chainF_getLast {roots : List Nat} :
    ∀ {f n : Nat} {l : List Nat}, chainF roots f n = some l →
      ∃ r, l.getLast? = some r ∧ findRootF roots f n = some r ∧ parent roots r = r := by
  intro f
  induction f with
  | zero =>
    intro n l h
    by_cases hp : parent roots n = n
    · rw [chainF_self hp] at h
      cases h
      exact ⟨n, rfl, findRootF_self hp 0, hp⟩
    · rw [chainF_zero hp] at h
      cases h
  | succ f ih =>
    intro n l h
    by_cases hp : parent roots n = n
    · rw [chainF_self hp] at h
      cases h
      exact ⟨n, rfl, findRootF_self hp _, hp⟩
    · rw [chainF_succ hp] at h
      obtain ⟨l', hl', rfl⟩ := Option.map_eq_some'.mp h
      obtain ⟨r, hlast, hfr, hroot⟩ := ih hl'
      refine ⟨r, ?_, by rw [findRootF_succ hp]; exact hfr, hroot⟩
      obtain ⟨t, rfl⟩ := chainF_cons hl'
      simpa using hlast

/-- Conversely, a successful findRootF walk has its chain list. -/
theorem chainF_of_findRootF {roots : List Nat} :
    ∀ {f n r : Nat}, findRootF roots f n = some r → ∃ l, chainF roots f n = some l := by
  intro f
  induction f with
  | zero =>
    intro n r h
    by_cases hp : parent roots n = n
    · exact ⟨[n], chainF_self hp 0⟩
    · rw [findRootF_zero hp] at h
      cases h
  | succ f ih =>
    intro n r h
    by_cases hp : parent roots n = n
    · exact ⟨[n], chainF_self hp _⟩
    · rw [findRootF_succ hp] at h
      obtain ⟨l, hl⟩ := ih h
      exact ⟨n :: l, by rw [chainF_succ hp, hl]; rfl⟩

/-- Every element on the chain from n finds the same root as n. -/
theorem chainF_mem_root {roots : List Nat} :
    ∀ {f n : Nat} {l : List Nat} {r : Nat}, chainF roots f n = some l →
      findRootF roots f n = some r →
      ∀ {x : Nat}, x ∈ l → ∃ g, g ≤ f ∧ findRootF roots g x = some r := by
  intro f
  induction f with
  | zero =>
    intro n l r hc hr x hx
    by_cases hp : parent roots n = n
    · rw [chainF_self hp] at hc
      cases hc
      simp only [List.mem_singleton] at hx
      subst hx
      exact ⟨0, Nat.le_refl 0, hr⟩
    · rw [chainF_zero hp] at hc
      cases hc
  | succ f ih =>
    intro n l r hc hr x hx
    by_cases hp : parent roots n = n
    · rw [chainF_self hp] at hc
      cases hc
      simp only [List.mem_singleton] at hx
      subst hx
      exact ⟨f + 1, Nat.le_refl _, hr⟩
    · rw [chainF_succ hp] at hc
      rw [findRootF_succ hp] at hr
      obtain ⟨l', hl', rfl⟩ := Option.map_eq_some'.mp hc
      rcases List.mem_cons.mp hx with hxn | hxl'
      · subst hxn
        exact ⟨f + 1, Nat.le_refl _, by rw [findRootF_succ hp]; exact hr⟩
      · obtain ⟨g, hg, hfg⟩ := ih hl' hr hxl'
        exact ⟨g, Nat.le_succ_of_le hg, hfg⟩

theorem parent_set_self {roots : List Nat} {x v : Nat} (hxlen : x - 1 < roots.length) :
    parent (roots.set (x - 1) v) x = v := by
  unfold parent
  rw [List.getD_eq_getElem?_getD, List.getElem?_set_eq_of_lt v hxlen]
  rfl

theorem parent_set_other {roots : List Nat} {x v y : Nat} (hx1 : 1 ≤ x) (hy1 : 1 ≤ y)
    (hne : y ≠ x) : parent (roots.set (x - 1) v) y = parent roots y := by
  unfold parent
  rw [List.getD_eq_getElem?_getD, List.getElem?_set_ne (by omega), ← List.getD_eq_getElem?_getD]

/-- A chain is unchanged on any roots list whose parent pointers agree on the
    chain's elements. -/
theorem chainF_congr {roots roots' : List Nat} :
    ∀ {f n : Nat} {l : List Nat}, chainF roots f n = some l →
      (∀ z ∈ l, parent roots' z = parent roots z) → chainF roots' f n = some l := by
  intro f
  induction f with
  | zero =>
    intro n l h hagree
    by_cases hp : parent roots n = n
    · rw [chainF_self hp] at h
      cases h
      have : parent roots' n = n := by rw [hagree n (by simp)]; exact hp
      exact chainF_self this 0
    · rw [chainF_zero hp] at h
      cases h
  | succ f ih =>
    intro n l h hagree
    by_cases hp : parent roots n = n
    · rw [chainF_self hp] at h
      cases h
      have : parent roots' n = n := by rw [hagree n (by simp)]; exact hp
      exact chainF_self this _
    · rw [chainF_succ hp] at h
      obtain ⟨l', hl', rfl⟩ := Option.map_eq_some'.mp h
      have hn' : parent roots' n = parent roots n := hagree n (by simp)
      have hp' : parent roots' n ≠ n := by rw [hn']; exact hp
      rw [chainF_succ hp', hn',
        ih hl' (fun z hz => hagree z (List.mem_cons_of_mem _ hz))]
      rfl

/-- Same congruence for findRootF via the chain. -/
theorem findRootF_congr {roots roots' : List Nat} {f n r : Nat} {l : List Nat}
    (hc : chainF roots f n = some l) (hr : findRootF roots f n = some r)
    (hagree : ∀ z ∈ l, parent roots' z = parent roots z) :
    findRootF roots' f n = some r := by
  have hc' := chainF_congr hc hagree
  obtain ⟨r', _, hfr', _⟩ := chainF_getLast hc'
  obtain ⟨r2, hlast2, hfr2, _⟩ := chainF_getLast hc
  have : r2 = r := findRootF_det hfr2 hr
  subst this
  obtain ⟨r3, hlast3, hfr3, _⟩ := chainF_getLast hc'
  -- the chains are the same list, so the last elements coincide
  rw [hlast2] at hlast3
  cases hlast3
  exact hfr3

theorem chainF_mem_inRange {space : Nat} {roots : List Nat} (hrc : RangeClosed space roots) :
    ∀ {f n : Nat} {l : List Nat}, InRange space n → chainF roots f n = some l →
      ∀ z ∈ l, InRange space z := by
  intro f
  induction f with
  | zero =>
    intro n l hn h z hz
    by_cases hp : parent roots n = n
    · rw [chainF_self hp] at h
      cases h
      simp only [List.mem_singleton] at hz
      subst hz
      exact hn
    · rw [chainF_zero hp] at h
      cases h
  | succ f ih =>
    intro n l hn h z hz
    by_cases hp : parent roots n = n
    · rw [chainF_self hp] at h
      cases h
      simp only [List.mem_singleton] at hz
      subst hz
      exact hn
    · rw [chainF_succ hp] at h
      obtain ⟨l', hl', rfl⟩ := Option.map_eq_some'.mp h
      rcases List.mem_cons.mp hz with hzn | hzl'
      · subst hzn
        exact hn
      · exact ih (hrc n hn) hl' z hzl'

/-- Single reparent of an element towards its own root preserves every
    find_root result. -/
theorem findRootF_set_own_root {space : Nat} {roots : List Nat}
    (hlen : roots.length = space)
    (hrc : RangeClosed space roots) {cur r fu : Nat}
    (hcur : InRange space cur) (hr1 : 1 ≤ r)
    (hfr : findRootF roots fu cur = some r) (hne : cur ≠ r) :
    ∀ {g y s : Nat}, InRange space y → findRootF roots g y = some s →
      ∃ g', findRootF (roots.set (cur - 1) r) g' y = some s := by
  have hroot : parent roots r = r := findRootF_root hfr
  have hcur1 : 1 ≤ cur := hcur.1
  have hrr : parent (roots.set (cur - 1) r) r = r := by
    rw [parent_set_other hcur1 hr1 (fun h => hne h.symm)]
    exact hroot
  intro g
  induction g with
  | zero =>
    intro y s hy h
    by_cases hp : parent roots y = y
    · rw [findRootF_self hp] at h
      cases h
      by_cases hyc : y = cur
      · -- y = cur is a root, so r = cur, contradiction
        subst hyc
        have : y = r := findRootF_det (findRootF_self hp fu) hfr
        exact absurd this hne
      · exact ⟨0, findRootF_self (by rw [parent_set_other hcur1 hy.1 hyc]; exact hp) 0⟩
    · rw [findRootF_zero hp] at h
      cases h
  | succ g ih =>
    intro y s hy h
    by_cases hyc : y = cur
    · rw [hyc] at h
      have hs : s = r := findRootF_det h hfr
      refine ⟨1, ?_⟩
      rw [hyc, hs]
      have hclen : cur - 1 < roots.length := by
        have := hcur.2
        omega
      have hpy : parent (roots.set (cur - 1) r) cur = r := parent_set_self hclen
      have hpyne : parent (roots.set (cur - 1) r) cur ≠ cur := by
        rw [hpy]; exact fun h => hne h.symm
      rw [findRootF_succ hpyne, hpy]
      exact findRootF_self hrr 0
    · by_cases hp : parent roots y = y
      · rw [findRootF_self hp] at h
        cases h
        exact ⟨0, findRootF_self (by rw [parent_set_other hcur1 hy.1 hyc]; exact hp) 0⟩
      · rw [findRootF_succ hp] at h
        obtain ⟨g', hg'⟩ := ih (hrc y hy) h
        refine ⟨g' + 1, ?_⟩
        have hpy : parent (roots.set (cur - 1) r) y = parent roots y :=
          parent_set_other hcur1 hy.1 hyc
        have hpyne : parent (roots.set (cur - 1) r) y ≠ y := by rw [hpy]; exact hp
        rw [findRootF_succ hpyne, hpy]
        exact hg'

/-- Fuel-indexed model of the while loop in PathCompression.path_compression:
    while roots[initial_num-1] != root:
      node = initial_num; initial_num = roots[initial_num-1]; roots[node-1] = root. -/
def pathCompF (roots : List Nat) (fuel cur r : Nat) : Option (List Nat) :=
  if parent roots cur = r then some roots
  else
    match fuel with
    | 0 => none
    | f + 1 => pathCompF (roots.set (cur - 1) r) f (parent roots cur) r

/-- PathCompression.path_compression of the source, with fuel roots.length. -/
def path_compression (roots : List Nat) (initial_num root : Nat) : Option (List Nat) :=
  pathCompF roots roots.length initial_num root

theorem pathCompF_stop {roots : List Nat} {cur r : Nat} (h : parent roots cur = r) (fuel : Nat) :
    pathCompF roots fuel cur r = some roots := by
  unfold pathCompF
  simp [h]

theorem pathCompF_zero {roots : List Nat} {cur r : Nat} (h : parent roots cur ≠ r) :
    pathCompF roots 0 cur r = none := by
  unfold pathCompF
  simp [h]

theorem pathCompF_succ {roots : List Nat} {cur r : Nat} (h : parent roots cur ≠ r) (f : Nat) :
    pathCompF roots (f + 1) cur r = pathCompF (roots.set (cur - 1) r) f (parent roots cur) r := by
  conv_lhs => unfold pathCompF
  simp [h]

/-- Full specification of the compression loop: it succeeds along the chain of
    cur, repoints every chain element (except the root) directly at the root,
    touches nothing else, and preserves every find_root result. -/
theorem pathComp_spec {space : Nat} :
    ∀ {f : Nat} {roots : List Nat} {cur r : Nat} {l : List Nat},
      roots.length = space → RangeClosed space roots →
      InRange space cur → InRange space r →
      parent roots r = r →
      chainF roots f cur = some l →
      l.getLast? = some r →
      ∃ roots2, pathCompF roots f cur r = some roots2 ∧
        roots2.length = space ∧
        RangeClosed space roots2 ∧
        (∀ x, 1 ≤ x → x ∉ l → parent roots2 x = parent roots x) ∧
        (∀ x ∈ l, x ≠ r → parent roots2 x = r) ∧
        parent roots2 r = r ∧
        (∀ g y s, InRange space y → findRootF roots g y = some s →
          ∃ g', findRootF roots2 g' y = some s) := by
  intro f
  induction f with
  | zero =>
    intro roots cur r l hlen hrc hcur hr hroot hc hlast
    by_cases hp : parent roots cur = cur
    · rw [chainF_self hp] at hc
      cases hc
      simp only [List.getLast?_singleton] at hlast
      cases hlast
      -- cur = r, and parent cur = cur = r, so the loop stops immediately
      refine ⟨roots, pathCompF_stop hp 0, hlen, hrc, fun x _ _ => rfl, ?_, hp,
        fun g y s _ h => ⟨g, h⟩⟩
      intro x hx hxr
      simp only [List.mem_singleton] at hx
      exact absurd hx hxr
    · rw [chainF_zero hp] at hc
      cases hc
  | succ f ih =>
    intro roots cur r l hlen hrc hcur hr hroot hc hlast
    by_cases hstop : parent roots cur = r
    · -- the loop stops at once; the chain is [cur] or [cur, r]
      refine ⟨roots, pathCompF_stop hstop _, hlen, hrc, fun x _ _ => rfl, ?_, hroot,
        fun g y s _ h => ⟨g, h⟩⟩
      intro x hx hxr
      by_cases hp : parent roots cur = cur
      · rw [chainF_self hp] at hc
        cases hc
        simp only [List.mem_singleton] at hx
        subst hx
        rw [hstop]
      · rw [chainF_succ hp] at hc
        obtain ⟨l', hl', rfl⟩ := Option.map_eq_some'.mp hc
        rw [hstop] at hl'
        rw [chainF_self hroot] at hl'
        cases hl'
        rcases List.mem_cons.mp hx with h1 | h1
        · subst h1
          exact hstop
        · simp only [List.mem_singleton] at h1
          exact absurd h1 hxr
    · -- the loop takes a step
      have hp : parent roots cur ≠ cur := by
        intro hcc
        rw [chainF_self hcc] at hc
        cases hc
        simp only [List.getLast?_singleton] at hlast
        cases hlast
        exact hstop hcc
      have hcr : cur ≠ r := by
        intro hh
        rw [hh, hroot] at hstop
        exact hstop rfl
      rw [chainF_succ hp] at hc
      obtain ⟨l', hl', rfl⟩ := Option.map_eq_some'.mp hc
      obtain ⟨t, ht⟩ := chainF_cons hl'
      have hlast' : l'.getLast? = some r := by
        rw [ht] at hlast ⊢
        rw [List.getLast?_cons_cons] at hlast
        exact hlast
      have hfr : findRootF roots (f + 1) cur = some r := by
        obtain ⟨r2, hlast2, hfr2, _⟩ := chainF_getLast (by rw [chainF_succ hp, hl']; rfl :
          chainF roots (f + 1) cur = some (cur :: l'))
        have : r2 = r := by
          rw [show (cur :: l').getLast? = l'.getLast? by rw [ht, List.getLast?_cons_cons]]
            at hlast2
        -- hlast2 : l'.getLast? = some r2, hlast' : l'.getLast? = some r
          rw [hlast'] at hlast2
          exact (Option.some_inj.mp hlast2).symm
        rw [← this]
        exact hfr2
      have hnodup := chainF_nodup (by rw [chainF_succ hp, hl']; rfl :
        chainF roots (f + 1) cur = some (cur :: l'))
      have hcurnotl' : cur ∉ l' := (List.nodup_cons.mp hnodup).1
      have hmem := chainF_mem_inRange hrc (hrc cur hcur) hl'
      set roots1 := roots.set (cur - 1) r with hroots1
      have hculen : cur - 1 < roots.length := by
        rw [hlen]
        have h1 := hcur.1
        have h2 := hcur.2
        omega
      have hlen1 : roots1.length = space := by
        rw [hroots1, List.length_set]
        exact hlen
      have hagree : ∀ z ∈ l', parent roots1 z = parent roots z := by
        intro z hz
        exact parent_set_other hcur.1 (hmem z hz).1 (fun h => hcurnotl' (h ▸ hz))
      have hc1 : chainF roots1 f (parent roots cur) = some l' := chainF_congr hl' hagree
      have hrc1 : RangeClosed space roots1 := by
        intro z hz
        by_cases hzc : z = cur
        · rw [hzc, parent_set_self hculen]
          exact hr
        · rw [parent_set_other hcur.1 hz.1 hzc]
          exact hrc z hz
      have hroot1 : parent roots1 r = r := by
        rw [parent_set_other hcur.1 hr.1 (fun h => hcr h.symm)]
        exact hroot
      obtain ⟨roots2, hpc2, hlen2, hrc2, huntouched2, hchain2, hroot2, hpres2⟩ :=
        ih hlen1 hrc1 (hrc cur hcur) hr hroot1 hc1 hlast'
      refine ⟨roots2, ?_, hlen2, hrc2, ?_, ?_, hroot2, ?_⟩
      · rw [pathCompF_succ hstop]
        exact hpc2
      · intro x hx1 hxl
        have hxcur : x ≠ cur := fun h => hxl (h ▸ List.mem_cons_self _ _)
        have hxl' : x ∉ l' := fun h => hxl (List.mem_cons_of_mem _ h)
        rw [huntouched2 x hx1 hxl']
        exact parent_set_other hcur.1 hx1 hxcur
      · intro x hx hxr
        rcases List.mem_cons.mp hx with h1 | h1
        · subst h1
          rw [huntouched2 x hcur.1 hcurnotl']
          exact parent_set_self hculen
        · exact hchain2 x h1 hxr
      · intro g y s hy h
        obtain ⟨g1, hg1⟩ :=
          findRootF_set_own_root hlen hrc hcur hr.1 hfr hcr hy h
        exact hpres2 g1 y s hy hg1

/-- Find.union of the source (QuickUnion base strategy): roots[p - 1] = q. -/
def union (roots : List Nat) (p q : Nat) : List Nat := roots.set (p - 1) q

/-- WeightedQuickUnion.union of the source: compare the two tree sizes, reparent
    the root of the smaller tree under the other root (ties fall into the else
    branch, which reparents q under p), and add the sizes. -/
def wqu_union (roots tree_size : List Nat) (p q : Nat) : List Nat × List Nat :=
  if tree_size.getD (p - 1) 0 < tree_size.getD (q - 1) 0 then
    (union roots p q, tree_size.set (q - 1) (tree_size.getD (q - 1) 0 + tree_size.getD (p - 1) 0))
  else
    (union roots q p, tree_size.set (p - 1) (tree_size.getD (p - 1) 0 + tree_size.getD (q - 1) 0))

/-- QuickFind.find_root of the source: a single direct list read. -/
def qf_find_root (roots : List Nat) (n : Nat) : Nat := roots.getD (n - 1) 0

/-- QuickFind.union of the source: every entry equal to p is reassigned to q
    (the Python loop runs num over range(space) with space = len(roots)). -/
def qf_union (roots : List Nat) (p q : Nat) : List Nat :=
  roots.map (fun v => if v = p then q else v)

/-- Effect of the base reparenting union on every find_root result: classes
    with root p now find q, all other classes are untouched. -/
theorem findRootF_union {space : Nat} {roots : List Nat}
    (hlen : roots.length = space) (hrc : RangeClosed space roots)
    {p q : Nat} (hp : InRange space p) (hq : InRange space q)
    (hrootp : parent roots p = p) (hrootq : parent roots q = q) (hpq : p ≠ q) :
    ∀ (g y s : Nat), InRange space y → findRootF roots g y = some s →
      ∃ g', findRootF (union roots p q) g' y = some (if s = p then q else s) := by
  have hplen : p - 1 < roots.length := by
    rw [hlen]
    have h1 := hp.1
    have h2 := hp.2
    omega
  have hpar_p : parent (union roots p q) p = q := parent_set_self hplen
  have hpar_q : parent (union roots p q) q = q := by
    rw [union, parent_set_other hp.1 hq.1 (fun h => hpq h.symm)]
    exact hrootq
  intro g
  induction g with
  | zero =>
    intro y s hy h
    by_cases hyp : parent roots y = y
    · rw [findRootF_self hyp] at h
      cases h
      by_cases hypp : y = p
      · subst hypp
        refine ⟨1, ?_⟩
        simp only [if_pos rfl]
        have hne : parent (union roots y q) y ≠ y := by
          rw [hpar_p]
          exact fun h => hpq h.symm
        rw [findRootF_succ hne, hpar_p]
        exact findRootF_self hpar_q 0
      · refine ⟨0, ?_⟩
        simp only [if_neg hypp]
        refine findRootF_self ?_ 0
        rw [union, parent_set_other hp.1 hy.1 hypp]
        exact hyp
    · rw [findRootF_zero hyp] at h
      cases h
  | succ g ih =>
    intro y s hy h
    by_cases hyp : parent roots y = y
    · rw [findRootF_self hyp] at h
      cases h
      by_cases hypp : y = p
      · subst hypp
        refine ⟨1, ?_⟩
        simp only [if_pos rfl]
        have hne : parent (union roots y q) y ≠ y := by
          rw [hpar_p]
          exact fun h => hpq h.symm
        rw [findRootF_succ hne, hpar_p]
        exact findRootF_self hpar_q 0
      · refine ⟨0, ?_⟩
        simp only [if_neg hypp]
        refine findRootF_self ?_ 0
        rw [union, parent_set_other hp.1 hy.1 hypp]
        exact hyp
    · have hyp2 : y ≠ p := by
        intro hh
        rw [hh] at hyp
        exact hyp hrootp
      rw [findRootF_succ hyp] at h
      obtain ⟨g', hg'⟩ := ih _ _ (hrc y hy) h
      refine ⟨g' + 1, ?_⟩
      have hpar_y : parent (union roots p q) y = parent roots y :=
        parent_set_other hp.1 hy.1 hyp2
      have hne : parent (union roots p q) y ≠ y := by rw [hpar_y]; exact hyp
      rw [findRootF_succ hne, hpar_y]
      exact hg'

theorem parent_qf_union {roots : List Nat} {p q e : Nat} (he : e - 1 < roots.length) :
    parent (qf_union roots p q) e = if parent roots e = p then q else parent roots e := by
  simp only [parent, qf_union, List.getD_eq_getElem?_getD, List.getElem?_map,
    List.getElem?_eq_getElem he]
  rfl

theorem qf_union_length (roots : List Nat) (p q : Nat) :
    (qf_union roots p q).length = roots.length := by
  simp [qf_union]

/-- The four interchangeable union/find strategies of the source. -/
inductive Strategy where
  | quickUnion
  | weightedQuickUnion
  | pathCompression
  | quickFind
deriving DecidableEq, Repr

/-- find_root as dispatched by each strategy class (QuickFind overrides the
    walk by a direct read, the others inherit the while loop). -/
def stratFindRoot : Strategy → List Nat → Nat → Option Nat
  | .quickFind, roots, n => some (qf_find_root roots n)
  | _, roots, n => find_root roots n

/-- Find.connected of the source: find_root(a) == find_root(b). -/
def stratConnected (strat : Strategy) (roots : List Nat) (a b : Nat) : Option Bool := do
  let p ← stratFindRoot strat roots a
  let q ← stratFindRoot strat roots b
  pure (p == q)

/-- Find.connect for the QuickUnion strategy: resolve both roots and union
    them when they differ. -/
def qu_connect (roots : List Nat) (a b : Nat) : Option (List Nat) := do
  let p ← find_root roots a
  let q ← find_root roots b
  if p ≠ q then pure (union roots p q) else pure roots

/-- Find.connect with WeightedQuickUnion.union. -/
def wqu_connect (roots tree_size : List Nat) (a b : Nat) : Option (List Nat × List Nat) := do
  let p ← find_root roots a
  let q ← find_root roots b
  if p ≠ q then pure (wqu_union roots tree_size p q) else pure (roots, tree_size)

/-- PathCompression.connect of the source: resolve both roots; when they
    differ, compress both operand chains to their already-resolved roots and
    only then union the two roots. -/
def pc_connect (roots tree_size : List Nat) (a b : Nat) : Option (List Nat × List Nat) := do
  let p ← find_root roots a
  let q ← find_root roots b
  if p ≠ q then do
    let roots1 ← path_compression roots a p
    let roots2 ← path_compression roots1 b q
    pure (wqu_union roots2 tree_size p q)
  else pure (roots, tree_size)

/-- Find.connect as inherited by QuickFind (find_root is the direct read). -/
def qf_connect (roots : List Nat) (a b : Nat) : List Nat :=
  let p := qf_find_root roots a
  let q := qf_find_root roots b
  if p ≠ q then qf_union roots p q else roots

/-- connect dispatched per strategy, acting on the (roots, tree_size) state. -/
def stratConnect : Strategy → List Nat × List Nat → Nat → Nat → Option (List Nat × List Nat)
  | .quickUnion, (roots, ts), a, b => (qu_connect roots a b).map (fun r => (r, ts))
  | .weightedQuickUnion, (roots, ts), a, b => wqu_connect roots ts a b
  | .pathCompression, (roots, ts), a, b => pc_connect roots ts a b
  | .quickFind, (roots, ts), a, b => some (qf_connect roots a b, ts)

/-- Invariant carried by the QuickFind strategy: the stored value of every
    element is itself a stored fixed point (entries are final roots). -/
def QFInv (space : Nat) (roots : List Nat) : Prop :=
  roots.length = space ∧ RangeClosed space roots ∧
    ∀ n, InRange space n → parent roots (parent roots n) = parent roots n

/-- The per-strategy state invariant. -/
def StratInv : Strategy → Nat → List Nat → Prop
  | .quickFind, space, roots => QFInv space roots
  | _, space, roots => UFInv space roots

/-- The canonical root of an element under each strategy (total function; under
    the invariant it is the value of stratFindRoot). -/
def rootOf : Strategy → List Nat → Nat → Nat
  | .quickFind, roots, n => qf_find_root roots n
  | _, roots, n => (find_root roots n).getD 0

theorem find_root_of_findRootF {space : Nat} {roots : List Nat} (hInv : UFInv space roots)
    {g n v : Nat} (hn : InRange space n) (h : findRootF roots g n = some v) :
    find_root roots n = some v := by
  obtain ⟨r, hr⟩ := UFInv_find_root_some hInv hn
  rw [hr]
  exact congrArg some (findRootF_det hr h)

theorem find_root_getD {space : Nat} {roots : List Nat} (hInv : UFInv space roots)
    {n : Nat} (hn : InRange space n) :
    find_root roots n = some ((find_root roots n).getD 0) := by
  obtain ⟨r, hr⟩ := UFInv_find_root_some hInv hn
  rw [hr]
  rfl

/-- Effect of the base union on the canonical-root function, with preservation
    of the QuickUnion-family invariant. -/
theorem union_effect_rootOf {space : Nat} {roots : List Nat} (hInv : UFInv space roots)
    {p q : Nat} (hp : InRange space p) (hq : InRange space q)
    (hrootp : parent roots p = p) (hrootq : parent roots q = q) (hpq : p ≠ q) :
    UFInv space (union roots p q) ∧
      ∀ x, InRange space x → (find_root (union roots p q) x).getD 0 =
        if (find_root roots x).getD 0 = p then q else (find_root roots x).getD 0 := by
  obtain ⟨hlen, hrc, hterm⟩ := hInv
  have heff := findRootF_union hlen hrc hp hq hrootp hrootq hpq
  have hInv' : UFInv space (union roots p q) := by
    refine ⟨by rw [union, List.length_set]; exact hlen, ?_, ?_⟩
    · intro y hy
      by_cases hyp : y = p
      · rw [hyp, union, parent_set_self (by rw [hlen]; have h1 := hp.1; have h2 := hp.2; omega)]
        exact hq
      · rw [union, parent_set_other hp.1 hy.1 hyp]
        exact hrc y hy
    · intro y hy
      obtain ⟨r, hr⟩ := UFInv_find_root_some ⟨hlen, hrc, hterm⟩ hy
      obtain ⟨g', hg'⟩ := heff _ _ _ hy hr
      exact ⟨g', by rw [hg']; rfl⟩
  refine ⟨hInv', ?_⟩
  intro x hx
  obtain ⟨r, hr⟩ := UFInv_find_root_some ⟨hlen, hrc, hterm⟩ hx
  obtain ⟨g', hg'⟩ := heff _ _ _ hx hr
  have h2 := find_root_of_findRootF hInv' hx hg'
  rw [h2, hr]
  rfl

/-- Effect of WeightedQuickUnion.union on the canonical-root function: one of
    the two operand roots survives and absorbs the other operand's class. -/
theorem wqu_union_effect {space : Nat} {roots : List Nat} (ts : List Nat)
    (hInv : UFInv space roots)
    {p q : Nat} (hp : InRange space p) (hq : InRange space q)
    (hrootp : parent roots p = p) (hrootq : parent roots q = q) (hpq : p ≠ q) :
    UFInv space (wqu_union roots ts p q).1 ∧
      ∃ P Q, ((P = p ∧ Q = q) ∨ (P = q ∧ Q = p)) ∧
        ∀ x, InRange space x → (find_root (wqu_union roots ts p q).1 x).getD 0 =
          if (find_root roots x).getD 0 = P then Q else (find_root roots x).getD 0 := by
  by_cases hts : ts.getD (p - 1) 0 < ts.getD (q - 1) 0
  · have h1 : (wqu_union roots ts p q).1 = union roots p q := by
      rw [wqu_union, if_pos hts]
    obtain ⟨hInv', heff⟩ := union_effect_rootOf hInv hp hq hrootp hrootq hpq
    rw [h1]
    exact ⟨hInv', p, q, Or.inl ⟨rfl, rfl⟩, heff⟩
  · have h1 : (wqu_union roots ts p q).1 = union roots q p := by
      rw [wqu_union, if_neg hts]
    obtain ⟨hInv', heff⟩ := union_effect_rootOf hInv hq hp hrootq hrootp (fun h => hpq h.symm)
    rw [h1]
    exact ⟨hInv', q, p, Or.inr ⟨rfl, rfl⟩, heff⟩

/-- Record of which entries a union-find mutation touched: every changed entry
    belongs to an element whose old root was ra or rb, and now points directly
    at ra or rb. -/
def ChangedInfo (space : Nat) (roots roots' : List Nat) (ra rb : Nat) : Prop :=
  ∀ x, InRange space x → parent roots' x ≠ parent roots x →
    (∃ g s, findRootF roots g x = some s ∧ (s = ra ∨ s = rb)) ∧
    (parent roots' x = ra ∨ parent roots' x = rb)

theorem ChangedInfo_refl (space : Nat) (roots : List Nat) (ra rb : Nat) :
    ChangedInfo space roots roots ra rb :=
  fun _ _ hch => absurd rfl hch

theorem ChangedInfo_symm {space : Nat} {roots roots' : List Nat} {ra rb : Nat}
    (h : ChangedInfo space roots roots' ra rb) : ChangedInfo space roots roots' rb ra := by
  intro x hx hch
  obtain ⟨⟨g, s, hg, hs⟩, hentry⟩ := h x hx hch
  exact ⟨⟨g, s, hg, hs.symm⟩, hentry.symm⟩

theorem union_changed {space : Nat} {roots : List Nat} (hlen : roots.length = space)
    {p q : Nat} (hp : InRange space p) (hrootp : parent roots p = p) :
    ChangedInfo space roots (union roots p q) p q := by
  intro x hx hch
  have hxp : x = p := by
    by_contra hne
    exact hch (parent_set_other hp.1 hx.1 hne)
  constructor
  · refine ⟨0, x, findRootF_self (by rw [hxp]; exact hrootp) 0, Or.inl ?_⟩
    exact hxp
  · right
    rw [hxp]
    exact parent_set_self (by rw [hlen]; have h1 := hp.1; have h2 := hp.2; omega)

theorem wqu_union_fst (roots ts : List Nat) (p q : Nat) :
    (wqu_union roots ts p q).1 = union roots p q ∨
      (wqu_union roots ts p q).1 = union roots q p := by
  rw [wqu_union]
  split
  · exact Or.inl rfl
  · exact Or.inr rfl

/-- Working form of pathComp_spec for the source wrapper path_compression,
    invoked on an operand a and its already-resolved root p. -/
theorem path_compression_spec {space : Nat} {roots : List Nat} (hInv : UFInv space roots)
    {a p : Nat} (ha : InRange space a) (hfr : find_root roots a = some p) :
    ∃ roots1, path_compression roots a p = some roots1 ∧
      UFInv space roots1 ∧
      (∀ x, InRange space x → find_root roots1 x = find_root roots x) ∧
      (parent roots1 a = p ∨ a = p) ∧
      parent roots1 p = p ∧
      (∀ x, 1 ≤ x → parent roots1 x ≠ parent roots x →
        (∃ g, findRootF roots g x = some p) ∧ parent roots1 x = p) := by
  obtain ⟨hlen, hrc, hterm⟩ := hInv
  have hfr' : findRootF roots roots.length a = some p := hfr
  have hp : InRange space p := findRootF_inRange hrc ha hfr'
  have hrootp : parent roots p = p := findRootF_root hfr'
  obtain ⟨l, hl⟩ := chainF_of_findRootF hfr'
  have hlast : l.getLast? = some p := by
    obtain ⟨r2, hlast2, hfr2, _⟩ := chainF_getLast hl
    rw [hlast2]
    exact congrArg some (findRootF_det hfr2 hfr')
  obtain ⟨roots2, hpc, hlen2, hrc2, huntouched, hchain, hroot2, hpres⟩ :=
    pathComp_spec hlen hrc ha hp hrootp hl hlast
  have hInv2 : UFInv space roots2 := by
    refine ⟨hlen2, hrc2, ?_⟩
    intro n hn
    obtain ⟨r, hr⟩ := UFInv_find_root_some ⟨hlen, hrc, hterm⟩ hn
    obtain ⟨g', hg'⟩ := hpres _ _ _ hn hr
    exact ⟨g', by rw [hg']; rfl⟩
  have hal : a ∈ l := by
    obtain ⟨t, ht⟩ := chainF_cons hl
    rw [ht]
    exact List.mem_cons_self _ _
  refine ⟨roots2, hpc, hInv2, ?_, ?_, hroot2, ?_⟩
  · intro x hx
    obtain ⟨r, hr⟩ := UFInv_find_root_some ⟨hlen, hrc, hterm⟩ hx
    obtain ⟨g', hg'⟩ := hpres _ _ _ hx hr
    rw [hr]
    exact find_root_of_findRootF hInv2 hx hg'
  · by_cases hap : a = p
    · exact Or.inr hap
    · exact Or.inl (hchain a hal hap)
  · intro x hx1 hchanged
    have hxl : x ∈ l := by
      by_contra hxl
      exact hchanged (huntouched x hx1 hxl)
    have hxp : x ≠ p := by
      intro hh
      rw [hh] at hchanged
      rw [hroot2] at hchanged
      exact hchanged hrootp.symm
    refine ⟨?_, hchain x hxl hxp⟩
    obtain ⟨g, _, hg⟩ := chainF_mem_root hl hfr' hxl
    exact ⟨g, hg⟩

/-- Effect of Find.connect under the QuickUnion strategy: it always succeeds
    on an invariant state, preserves the invariant, and merges the two operand
    classes (the class of a is absorbed into the class of b when distinct). -/
theorem qu_connect_effect {space : Nat} {roots : List Nat} (hInv : UFInv space roots)
    {a b : Nat} (ha : InRange space a) (hb : InRange space b) :
    ∃ roots', qu_connect roots a b = some roots' ∧ UFInv space roots' ∧
      ChangedInfo space roots roots' ((find_root roots a).getD 0) ((find_root roots b).getD 0) ∧
      ∃ P Q, ((P = (find_root roots a).getD 0 ∧ Q = (find_root roots b).getD 0) ∨
              (P = (find_root roots b).getD 0 ∧ Q = (find_root roots a).getD 0)) ∧
        ∀ x, InRange space x → (find_root roots' x).getD 0 =
          if (find_root roots x).getD 0 = P then Q else (find_root roots x).getD 0 := by
  obtain ⟨p, hpa⟩ := UFInv_find_root_some hInv ha
  obtain ⟨q, hpb⟩ := UFInv_find_root_some hInv hb
  have hra : (find_root roots a).getD 0 = p := by rw [hpa]; rfl
  have hrb : (find_root roots b).getD 0 = q := by rw [hpb]; rfl
  rw [hra, hrb, qu_connect, hpa, hpb]
  simp only [Option.bind_eq_bind, Option.some_bind]
  by_cases hpq : p = q
  · rw [if_neg (fun h => h hpq)]
    refine ⟨roots, rfl, hInv, ChangedInfo_refl space roots p q, p, q, Or.inl ⟨rfl, rfl⟩, ?_⟩
    intro x hx
    by_cases h : (find_root roots x).getD 0 = p
    · rw [if_pos h, h, hpq]
    · rw [if_neg h]
  · rw [if_pos hpq]
    have hpa' : findRootF roots roots.length a = some p := hpa
    have hpb' : findRootF roots roots.length b = some q := hpb
    have hp : InRange space p := findRootF_inRange hInv.2.1 ha hpa'
    have hq : InRange space q := findRootF_inRange hInv.2.1 hb hpb'
    have hrootp : parent roots p = p := findRootF_root hpa'
    have hrootq : parent roots q = q := findRootF_root hpb'
    obtain ⟨hInv', heff⟩ := union_effect_rootOf hInv hp hq hrootp hrootq hpq
    exact ⟨union roots p q, rfl, hInv',
      union_changed hInv.1 hp hrootp, p, q, Or.inl ⟨rfl, rfl⟩, heff⟩

/-- Effect of Find.connect under the WeightedQuickUnion strategy. -/
theorem wqu_connect_effect {space : Nat} {roots ts : List Nat} (hInv : UFInv space roots)
    {a b : Nat} (ha : InRange space a) (hb : InRange space b) :
    ∃ roots' ts', wqu_connect roots ts a b = some (roots', ts') ∧ UFInv space roots' ∧
      ChangedInfo space roots roots' ((find_root roots a).getD 0) ((find_root roots b).getD 0) ∧
      ∃ P Q, ((P = (find_root roots a).getD 0 ∧ Q = (find_root roots b).getD 0) ∨
              (P = (find_root roots b).getD 0 ∧ Q = (find_root roots a).getD 0)) ∧
        ∀ x, InRange space x → (find_root roots' x).getD 0 =
          if (find_root roots x).getD 0 = P then Q else (find_root roots x).getD 0 := by
  obtain ⟨p, hpa⟩ := UFInv_find_root_some hInv ha
  obtain ⟨q, hpb⟩ := UFInv_find_root_some hInv hb
  have hra : (find_root roots a).getD 0 = p := by rw [hpa]; rfl
  have hrb : (find_root roots b).getD 0 = q := by rw [hpb]; rfl
  rw [hra, hrb, wqu_connect, hpa, hpb]
  simp only [Option.bind_eq_bind, Option.some_bind]
  by_cases hpq : p = q
  · rw [if_neg (fun h => h hpq)]
    refine ⟨roots, ts, rfl, hInv, ChangedInfo_refl space roots p q, p, q, Or.inl ⟨rfl, rfl⟩, ?_⟩
    intro x hx
    by_cases h : (find_root roots x).getD 0 = p
    · rw [if_pos h, h, hpq]
    · rw [if_neg h]
  · rw [if_pos hpq]
    have hpa' : findRootF roots roots.length a = some p := hpa
    have hpb' : findRootF roots roots.length b = some q := hpb
    have hp : InRange space p := findRootF_inRange hInv.2.1 ha hpa'
    have hq : InRange space q := findRootF_inRange hInv.2.1 hb hpb'
    have hrootp : parent roots p = p := findRootF_root hpa'
    have hrootq : parent roots q = q := findRootF_root hpb'
    obtain ⟨hInv', P, Q, hPQ, heff⟩ := wqu_union_effect ts hInv hp hq hrootp hrootq hpq
    have hchanged : ChangedInfo space roots (wqu_union roots ts p q).1 p q := by
      rcases wqu_union_fst roots ts p q with hfst | hfst
      · rw [hfst]
        exact union_changed hInv.1 hp hrootp
      · rw [hfst]
        exact ChangedInfo_symm (union_changed hInv.1 hq hrootq)
    exact ⟨(wqu_union roots ts p q).1, (wqu_union roots ts p q).2, rfl, hInv',
      hchanged, P, Q, hPQ, heff⟩

/-- Effect of PathCompression.connect: compression leaves every class
    untouched, then the weighted union merges the two operand classes. -/
theorem pc_connect_effect {space : Nat} {roots ts : List Nat} (hInv : UFInv space roots)
    {a b : Nat} (ha : InRange space a) (hb : InRange space b) :
    ∃ roots' ts', pc_connect roots ts a b = some (roots', ts') ∧ UFInv space roots' ∧
      ChangedInfo space roots roots' ((find_root roots a).getD 0) ((find_root roots b).getD 0) ∧
      ∃ P Q, ((P = (find_root roots a).getD 0 ∧ Q = (find_root roots b).getD 0) ∨
              (P = (find_root roots b).getD 0 ∧ Q = (find_root roots a).getD 0)) ∧
        ∀ x, InRange space x → (find_root roots' x).getD 0 =
          if (find_root roots x).getD 0 = P then Q else (find_root roots x).getD 0 := by
  obtain ⟨p, hpa⟩ := UFInv_find_root_some hInv ha
  obtain ⟨q, hpb⟩ := UFInv_find_root_some hInv hb
  have hra : (find_root roots a).getD 0 = p := by rw [hpa]; rfl
  have hrb : (find_root roots b).getD 0 = q := by rw [hpb]; rfl
  rw [hra, hrb, pc_connect, hpa, hpb]
  simp only [Option.bind_eq_bind, Option.some_bind]
  by_cases hpq : p = q
  · rw [if_neg (fun h => h hpq)]
    refine ⟨roots, ts, rfl, hInv, ChangedInfo_refl space roots p q, p, q, Or.inl ⟨rfl, rfl⟩, ?_⟩
    intro x hx
    by_cases h : (find_root roots x).getD 0 = p
    · rw [if_pos h, h, hpq]
    · rw [if_neg h]
  · rw [if_pos hpq]
    have hpa' : findRootF roots roots.length a = some p := hpa
    have hpb' : findRootF roots roots.length b = some q := hpb
    have hp : InRange space p := findRootF_inRange hInv.2.1 ha hpa'
    have hq : InRange space q := findRootF_inRange hInv.2.1 hb hpb'
    have hrootp : parent roots p = p := findRootF_root hpa'
    have hrootq : parent roots q = q := findRootF_root hpb'
    obtain ⟨roots1, hc1, hInv1, hpres1, _, hrootp1, hch1⟩ := path_compression_spec hInv ha hpa
    have hfb1 : find_root roots1 b = some q := by rw [hpres1 b hb]; exact hpb
    obtain ⟨roots2, hc2, hInv2, hpres2, _, hrootq2, hch2⟩ := path_compression_spec hInv1 hb hfb1
    rw [hc1]
    simp only [Option.some_bind]
    rw [hc2]
    simp only [Option.some_bind]
    have hpres20 : ∀ x, InRange space x → find_root roots2 x = find_root roots x := by
      intro x hx
      rw [hpres2 x hx, hpres1 x hx]
    have hrootp2 : parent roots2 p = p := by
      by_cases hchg : parent roots2 p = parent roots1 p
      · rw [hchg]
        exact hrootp1
      · obtain ⟨⟨g, hg⟩, _⟩ := hch2 p hp.1 hchg
        have h1 : find_root roots1 p = some p :=
          find_root_of_findRootF hInv1 hp (findRootF_self hrootp1 roots1.length)
        have h2 : find_root roots1 p = some q := find_root_of_findRootF hInv1 hp hg
        rw [h1] at h2
        exact absurd (Option.some_inj.mp h2) hpq
    obtain ⟨hInv3, P, Q, hPQ, heff3⟩ := wqu_union_effect ts hInv2 hp hq hrootp2 hrootq2 hpq
    have hch3 : ChangedInfo space roots2 (wqu_union roots2 ts p q).1 p q := by
      rcases wqu_union_fst roots2 ts p q with hfst | hfst
      · rw [hfst]
        exact union_changed hInv2.1 hp hrootp2
      · rw [hfst]
        exact ChangedInfo_symm (union_changed hInv2.1 hq hrootq2)
    refine ⟨(wqu_union roots2 ts p q).1, (wqu_union roots2 ts p q).2, rfl, hInv3, ?_, P, Q, hPQ, ?_⟩
    · -- compose the three changed-entry records
      intro x hx hch
      by_cases h32 : parent (wqu_union roots2 ts p q).1 x = parent roots2 x
      · by_cases h21 : parent roots2 x = parent roots1 x
        · have h10 : parent roots1 x ≠ parent roots x := by
            intro hh
            exact hch (by rw [h32, h21, hh])
          obtain ⟨⟨g, hg⟩, hentry⟩ := hch1 x hx.1 h10
          exact ⟨⟨g, p, hg, Or.inl rfl⟩, Or.inl (by rw [h32, h21]; exact hentry)⟩
        · obtain ⟨⟨g, hg⟩, hentry⟩ := hch2 x hx.1 h21
          have hq1 : find_root roots x = some q := by
            rw [← hpres1 x hx]
            exact find_root_of_findRootF hInv1 hx hg
          exact ⟨⟨roots.length, q, hq1, Or.inr rfl⟩, Or.inr (by rw [h32]; exact hentry)⟩
      · obtain ⟨⟨g, s, hg, hs⟩, hentry⟩ := hch3 x hx h32
        have hs1 : find_root roots x = some s := by
          rw [← hpres20 x hx]
          exact find_root_of_findRootF hInv2 hx hg
        exact ⟨⟨roots.length, s, hs1, hs⟩, hentry⟩
    · intro x hx
      rw [heff3 x hx, hpres20 x hx]

/-- Effect of Find.connect as inherited by QuickFind. -/
theorem qf_connect_effect {space : Nat} {roots : List Nat} (hInv : QFInv space roots)
    {a b : Nat} (ha : InRange space a) (hb : InRange space b) :
    QFInv space (qf_connect roots a b) ∧
      ChangedInfo space roots (qf_connect roots a b)
        (qf_find_root roots a) (qf_find_root roots b) ∧
      ∃ P Q, ((P = qf_find_root roots a ∧ Q = qf_find_root roots b) ∨
              (P = qf_find_root roots b ∧ Q = qf_find_root roots a)) ∧
        ∀ x, InRange space x → qf_find_root (qf_connect roots a b) x =
          if qf_find_root roots x = P then Q else qf_find_root roots x := by
  obtain ⟨hlen, hrc, hidem⟩ := hInv
  have hroota : parent roots (qf_find_root roots a) = qf_find_root roots a := hidem a ha
  have hrootb : parent roots (qf_find_root roots b) = qf_find_root roots b := hidem b hb
  by_cases hpq : qf_find_root roots a = qf_find_root roots b
  · have hconn : qf_connect roots a b = roots := by
      rw [qf_connect]
      simp only [if_neg (fun h : qf_find_root roots a ≠ qf_find_root roots b => h hpq)]
    rw [hconn]
    refine ⟨⟨hlen, hrc, hidem⟩, ChangedInfo_refl space roots _ _,
      qf_find_root roots a, qf_find_root roots b, Or.inl ⟨rfl, rfl⟩, ?_⟩
    intro x hx
    by_cases h : qf_find_root roots x = qf_find_root roots a
    · rw [if_pos h, h, hpq]
    · rw [if_neg h]
  · have hconn : qf_connect roots a b =
        qf_union roots (qf_find_root roots a) (qf_find_root roots b) := by
      rw [qf_connect]
      simp only [if_pos hpq]
    rw [hconn]
    have hqb : InRange space (qf_find_root roots b) := hrc b hb
    have heff : ∀ x, InRange space x →
        parent (qf_union roots (qf_find_root roots a) (qf_find_root roots b)) x =
          if parent roots x = qf_find_root roots a then qf_find_root roots b
          else parent roots x := by
      intro x hx
      exact parent_qf_union (by rw [hlen]; have h1 := hx.1; have h2 := hx.2; omega)
    refine ⟨⟨?_, ?_, ?_⟩, ?_, qf_find_root roots a, qf_find_root roots b,
      Or.inl ⟨rfl, rfl⟩, ?_⟩
    · rw [qf_union_length]
      exact hlen
    · intro x hx
      rw [heff x hx]
      by_cases h : parent roots x = qf_find_root roots a
      · rw [if_pos h]
        exact hqb
      · rw [if_neg h]
        exact hrc x hx
    · intro x hx
      rw [heff x hx]
      by_cases h : parent roots x = qf_find_root roots a
      · rw [if_pos h]
        rw [heff _ hqb]
        rw [if_neg (fun hh : parent roots (qf_find_root roots b) = qf_find_root roots a =>
          hpq (by rw [← hh]; exact hrootb))]
        exact hrootb
      · rw [if_neg h]
        have hpar : InRange space (parent roots x) := hrc x hx
        rw [heff _ hpar]
        rw [if_neg (fun hh : parent roots (parent roots x) = qf_find_root roots a =>
          h (by rw [← hh]; exact (hidem x hx).symm))]
        exact hidem x hx
    · intro x hx hch
      rw [heff x hx] at hch
      have hxa : parent roots x = qf_find_root roots a := by
        by_contra hne
        rw [if_neg hne] at hch
        exact hch rfl
      constructor
      · by_cases hxx : parent roots x = x
        · exact ⟨0, qf_find_root roots a, by rw [← hxa, hxx]; exact findRootF_self hxx 0,
            Or.inl rfl⟩
        · refine ⟨1, qf_find_root roots a, ?_, Or.inl rfl⟩
          rw [findRootF_succ hxx, hxa]
          exact findRootF_self hroota 0
      · right
        rw [heff x hx, if_pos hxa]
    · intro x hx
      exact heff x hx

/-- The uniform effect of connect for every strategy: on a state satisfying the
    strategy's invariant it succeeds, preserves the invariant, records which
    entries changed, and merges the classes of the two operands (one operand's
    canonical root absorbs the other's). -/
theorem stratConnect_effect (strat : Strategy) {space : Nat} {roots ts : List Nat}
    (hInv : StratInv strat space roots) {a b : Nat} (ha : InRange space a)
    (hb : InRange space b) :
    ∃ roots' ts', stratConnect strat (roots, ts) a b = some (roots', ts') ∧
      StratInv strat space roots' ∧
      ChangedInfo space roots roots' (rootOf strat roots a) (rootOf strat roots b) ∧
      ∃ P Q, ((P = rootOf strat roots a ∧ Q = rootOf strat roots b) ∨
              (P = rootOf strat roots b ∧ Q = rootOf strat roots a)) ∧
        ∀ x, InRange space x →
          rootOf strat roots' x = if rootOf strat roots x = P then Q
            else rootOf strat roots x := by
  cases strat with
  | quickUnion =>
    obtain ⟨roots', hconn, hInv', hch, P, Q, hPQ, heff⟩ := qu_connect_effect hInv ha hb
    refine ⟨roots', ts, ?_, hInv', hch, P, Q, hPQ, heff⟩
    show (qu_connect roots a b).map (fun r => (r, ts)) = some (roots', ts)
    rw [hconn]
    rfl
  | weightedQuickUnion =>
    obtain ⟨roots', ts', hconn, hInv', hch, P, Q, hPQ, heff⟩ := wqu_connect_effect hInv ha hb
    exact ⟨roots', ts', hconn, hInv', hch, P, Q, hPQ, heff⟩
  | pathCompression =>
    obtain ⟨roots', ts', hconn, hInv', hch, P, Q, hPQ, heff⟩ := pc_connect_effect hInv ha hb
    exact ⟨roots', ts', hconn, hInv', hch, P, Q, hPQ, heff⟩
  | quickFind =>
    obtain ⟨hInv', hch, P, Q, hPQ, heff⟩ := qf_connect_effect hInv ha hb
    exact ⟨qf_connect roots a b, ts, rfl, hInv', hch, P, Q, hPQ, heff⟩

/-- Find.__init__ of the source: roots = [num + 1 for num in range(space)]
    with space = size ** 2 (validated to be positive). -/
def initRoots (size : Nat) : List Nat := (List.range (size ^ 2)).map (· + 1)

/-- WeightedQuickUnion.__init__ of the source: tree_size = [1, 1, ..., 1]. -/
def initTreeSize (size : Nat) : List Nat := List.replicate (size ^ 2) 1

theorem initRoots_length (size : Nat) : (initRoots size).length = size ^ 2 := by
  simp [initRoots]

theorem parent_initRoots {size n : Nat} (hn : InRange (size ^ 2) n) :
    parent (initRoots size) n = n := by
  unfold parent initRoots
  rw [List.getD_eq_getElem?_getD, List.getElem?_map,
    List.getElem?_range (by have h1 := hn.1; have h2 := hn.2; omega)]
  have h1 := hn.1
  simp
  omega

theorem StratInv_init (strat : Strategy) (size : Nat) :
    StratInv strat (size ^ 2) (initRoots size) := by
  have hlen := initRoots_length size
  have hrc : RangeClosed (size ^ 2) (initRoots size) := by
    intro n hn
    rw [parent_initRoots hn]
    exact hn
  cases strat with
  | quickFind =>
    exact ⟨hlen, hrc, fun n hn => by rw [parent_initRoots hn, parent_initRoots hn]⟩
  | quickUnion =>
    exact ⟨hlen, hrc, fun n hn => ⟨0, by rw [findRootF_self (parent_initRoots hn) 0]; rfl⟩⟩
  | weightedQuickUnion =>
    exact ⟨hlen, hrc, fun n hn => ⟨0, by rw [findRootF_self (parent_initRoots hn) 0]; rfl⟩⟩
  | pathCompression =>
    exact ⟨hlen, hrc, fun n hn => ⟨0, by rw [findRootF_self (parent_initRoots hn) 0]; rfl⟩⟩

/-- Union-find states reachable from a fresh Find object of the given size by
    connect calls on valid elements. -/
inductive UFReachable (strat : Strategy) (size : Nat) : List Nat × List Nat → Prop where
  | init : 1 ≤ size → UFReachable strat size (initRoots size, initTreeSize size)
  | step {rt rt' : List Nat × List Nat} {a b : Nat} :
      UFReachable strat size rt → InRange (size ^ 2) a → InRange (size ^ 2) b →
      stratConnect strat rt a b = some rt' → UFReachable strat size rt'

theorem UFReachable_inv {strat : Strategy} {size : Nat} {rt : List Nat × List Nat}
    (h : UFReachable strat size rt) : StratInv strat (size ^ 2) rt.1 := by
  induction h with
  | init _ => exact StratInv_init strat size
  | step hr ha hb hconn ih =>
    rename_i rt rt' a b
    obtain ⟨roots', ts', hconn2, hInv', _, _⟩ := stratConnect_effect strat ih ha hb
    have : stratConnect strat rt a b = some (roots', ts') := hconn2
    rw [hconn] at this
    have heq : rt' = (roots', ts') := Option.some_inj.mp this
    rw [heq]
    exact hInv'

theorem stratFindRoot_eq {strat : Strategy} {space : Nat} {roots : List Nat}
    (hInv : StratInv strat space roots) {n : Nat} (hn : InRange space n) :
    stratFindRoot strat roots n = some (rootOf strat roots n) := by
  cases strat with
  | quickFind => rfl
  | quickUnion => exact find_root_getD hInv hn
  | weightedQuickUnion => exact find_root_getD hInv hn
  | pathCompression => exact find_root_getD hInv hn

/-- After a successful connect, the two operands have the same canonical root. -/
theorem stratConnect_merges {strat : Strategy} {space : Nat} {roots ts roots' ts' : List Nat}
    {a b : Nat} (hInv : StratInv strat space roots) (ha : InRange space a)
    (hb : InRange space b)
    (hconn : stratConnect strat (roots, ts) a b = some (roots', ts')) :
    StratInv strat space roots' ∧ rootOf strat roots' a = rootOf strat roots' b := by
  obtain ⟨roots2, ts2, hconn2, hInv', _, P, Q, hPQ, heff⟩ := stratConnect_effect strat hInv ha hb
  rw [hconn] at hconn2
  have heq := Option.some_inj.mp hconn2
  injection heq with h1 h2
  subst h1
  refine ⟨hInv', ?_⟩
  rw [heff a ha, heff b hb]
  rcases hPQ with ⟨hP, hQ⟩ | ⟨hP, hQ⟩
  · rw [if_pos hP.symm]
    by_cases h : rootOf strat roots b = P
    · rw [if_pos h]
    · rw [if_neg h, hQ]
  · rw [if_pos hP.symm]
    by_cases h : rootOf strat roots a = P
    · rw [if_pos h]
    · rw [if_neg h, hQ]

/-- Every later connect preserves an established root equality. -/
theorem stratConnect_preserves_eq {strat : Strategy} {space : Nat}
    {roots ts roots' ts' : List Nat} {c d : Nat} (hInv : StratInv strat space roots)
    (hc : InRange space c) (hd : InRange space d)
    (hconn : stratConnect strat (roots, ts) c d = some (roots', ts'))
    {a b : Nat} (ha : InRange space a) (hb : InRange space b)
    (hab : rootOf strat roots a = rootOf strat roots b) :
    StratInv strat space roots' ∧ rootOf strat roots' a = rootOf strat roots' b := by
  obtain ⟨roots2, ts2, hconn2, hInv', _, P, Q, hPQ, heff⟩ := stratConnect_effect strat hInv hc hd
  rw [hconn] at hconn2
  have heq := Option.some_inj.mp hconn2
  injection heq with h1 h2
  subst h1
  refine ⟨hInv', ?_⟩
  rw [heff a ha, heff b hb, hab]

/-- States reachable from a given union-find state by further connect calls. -/
inductive UFReachableFrom (strat : Strategy) (size : Nat) :
    List Nat × List Nat → List Nat × List Nat → Prop where
  | refl (rt : List Nat × List Nat) : UFReachableFrom strat size rt rt
  | step {rt rt' rt'' : List Nat × List Nat} {c d : Nat} :
      UFReachableFrom strat size rt rt' →
      InRange (size ^ 2) c → InRange (size ^ 2) d →
      stratConnect strat rt' c d = some rt'' → UFReachableFrom strat size rt rt''

theorem UFReachableFrom_pres {strat : Strategy} {size : Nat} {rt rt' : List Nat × List Nat}
    (h : UFReachableFrom strat size rt rt') (hInv : StratInv strat (size ^ 2) rt.1)
    {a b : Nat} (ha : InRange (size ^ 2) a) (hb : InRange (size ^ 2) b)
    (hab : rootOf strat rt.1 a = rootOf strat rt.1 b) :
    StratInv strat (size ^ 2) rt'.1 ∧ rootOf strat rt'.1 a = rootOf strat rt'.1 b := by
  induction h with
  | refl => exact ⟨hInv, hab⟩
  | step hfrom hc hd hconn ih =>
    rename_i rt1 rt2 c d
    obtain ⟨hInv1, hab1⟩ := ih
    exact stratConnect_preserves_eq hInv1 hc hd hconn ha hb hab1

theorem uf_c4_helper {space : Nat} {roots : List Nat} (hInv : UFInv space roots)
    {e : Nat} (he : InRange space e) :
    (∃ k, k ≤ space ∧ parent roots ((parent roots)^[k] e) = (parent roots)^[k] e) ∧
    (find_root roots e).isSome := by
  refine ⟨UFInv_fix_within hInv he, ?_⟩
  obtain ⟨r, hr⟩ := UFInv_find_root_some hInv he
  rw [hr]
  rfl

theorem stratConnected_true {strat : Strategy} {space : Nat} {roots : List Nat}
    (hInv : StratInv strat space roots) {a b : Nat} (ha : InRange space a)
    (hb : InRange space b) (hab : rootOf strat roots a = rootOf strat roots b) :
    stratConnected strat roots a b = some true := by
  rw [stratConnected, stratFindRoot_eq hInv ha, stratFindRoot_eq hInv hb]
  simp [hab]

/-- C4: for every strategy and every element e in [1, space], after any
    sequence of connect calls on valid elements starting from a freshly
    constructed object, repeatedly following roots[e] reaches a fixed point (a
    self-root) within space steps, and consequently find_root terminates. -/
theorem claim_C4 {strat : Strategy} {size : Nat} {rt : List Nat × List Nat}
    (hreach : UFReachable strat size rt) {e : Nat} (he : InRange (size ^ 2) e) :
    (∃ k, k ≤ size ^ 2 ∧ parent rt.1 ((parent rt.1)^[k] e) = (parent rt.1)^[k] e) ∧
    (stratFindRoot strat rt.1 e).isSome := by
  have hInv := UFReachable_inv hreach
  cases strat with
  | quickFind =>
    obtain ⟨hlen, hrc, hidem⟩ := hInv
    refine ⟨⟨1, ?_, ?_⟩, rfl⟩
    · have h1 := he.1
      have h2 := he.2
      omega
    · rw [Function.iterate_one]
      exact hidem e he
  | quickUnion => exact uf_c4_helper hInv he
  | weightedQuickUnion => exact uf_c4_helper hInv he
  | pathCompression => exact uf_c4_helper hInv he

theorem claim_C4_witness :
    (∃ k, k ≤ 1 ^ 2 ∧ parent (initRoots 1) ((parent (initRoots 1))^[k] 1) =
      (parent (initRoots 1))^[k] 1) ∧
    (stratFindRoot Strategy.quickFind (initRoots 1) 1).isSome :=
  claim_C4 (UFReachable.init (by decide)) (by decide)

/-- C6: for every strategy, after connect(a, b) on elements a, b in [1, space],
    connected(a, b) returns true, and it remains true after any further
    connect(c, d) calls — connectivity is never undone. -/
theorem claim_C6 {strat : Strategy} {size : Nat} {rt rt1 rt2 : List Nat × List Nat}
    {a b : Nat} (hreach : UFReachable strat size rt)
    (ha : InRange (size ^ 2) a) (hb : InRange (size ^ 2) b)
    (hconn : stratConnect strat rt a b = some rt1)
    (hfrom : UFReachableFrom strat size rt1 rt2) :
    stratConnected strat rt1.1 a b = some true ∧
    stratConnected strat rt2.1 a b = some true := by
  have hInv := UFReachable_inv hreach
  have hconn' : stratConnect strat (rt.1, rt.2) a b = some (rt1.1, rt1.2) := hconn
  obtain ⟨hInv1, heq1⟩ := stratConnect_merges hInv ha hb hconn'
  obtain ⟨hInv2, heq2⟩ := UFReachableFrom_pres hfrom hInv1 ha hb heq1
  exact ⟨stratConnected_true hInv1 ha hb heq1, stratConnected_true hInv2 ha hb heq2⟩

theorem claim_C6_witness :
    stratConnected Strategy.quickUnion (initRoots 1) 1 1 = some true ∧
    stratConnected Strategy.quickUnion (initRoots 1) 1 1 = some true :=
  @claim_C6 Strategy.quickUnion 1 (initRoots 1, initTreeSize 1)
    (initRoots 1, initTreeSize 1) (initRoots 1, initTreeSize 1) 1 1
    (UFReachable.init (by decide)) (by decide) (by decide) (by decide)
    (UFReachableFrom.refl _)

/-! The Board class: a size x size grid stored as a flat list of 0/1 cells,
    owning a finder (one of the four strategies) over the same space. -/

/-- The mutable state of a Board object. -/
structure BoardState where
  size : Nat
  roots : List Nat
  tree_size : List Nat
  board : List Nat
  open_positions : Nat
deriving DecidableEq, Repr

/-- Board.__init__ of the source: a validated size (>= 1), a fresh finder of
    the chosen strategy, an all-closed board and a zero open counter. -/
def initBoard (size : Nat) : BoardState :=
  { size := size
    roots := initRoots size
    tree_size := initTreeSize size
    board := List.replicate (size ^ 2) 0
    open_positions := 0 }

/-- Board.is_open of the source: board[n - 1] == 1. -/
def is_open (board : List Nat) (n : Nat) : Bool := board.getD (n - 1) 0 == 1

/-- Board.__position of the source: (a - 1) * size + b. -/
def boardPosition (size a b : Nat) : Nat := (a - 1) * size + b

/-- Board.__connect of the source: try the four neighbors (above, below, left,
    right), connecting the newly opened position to each neighbor that exists
    on the grid and is already open. -/
def board_connect (strat : Strategy) (size : Nat) (board : List Nat)
    (rt : List Nat × List Nat) (a b pos : Nat) : Option (List Nat × List Nat) :=
  let above := pos - size
  let below := pos + size
  let left := pos - 1
  let right := pos + 1
  (if a ≠ 1 ∧ is_open board above then stratConnect strat rt pos above else some rt).bind
    (fun rt1 =>
      (if a ≠ size ∧ is_open board below then stratConnect strat rt1 pos below
        else some rt1).bind
        (fun rt2 =>
          (if b ≠ 1 ∧ is_open board left then stratConnect strat rt2 pos left
            else some rt2).bind
            (fun rt3 =>
              if b ≠ size ∧ is_open board right then stratConnect strat rt3 pos right
              else some rt3)))

/-- Board.open_gate of the source: if the position is already open return
    False without mutation; otherwise mark it open, bump the counter, connect
    to the open neighbors and return True. -/
def open_gate (strat : Strategy) (st : BoardState) (a b : Nat) : Option (Bool × BoardState) :=
  let pos := boardPosition st.size a b
  if is_open st.board pos then some (false, st)
  else do
    let board1 := st.board.set (pos - 1) 1
    let rt ← board_connect strat st.size board1 (st.roots, st.tree_size) a b pos
    pure (true, { st with
      board := board1
      open_positions := st.open_positions + 1
      roots := rt.1
      tree_size := rt.2 })

/-- Board.number_of_open_positions of the source. -/
def number_of_open_positions (st : BoardState) : Nat := st.open_positions

/-- Board.is_full of the source: the position is open and its root equals the
    root of some element of the first row (queried for every top element,
    open or not). -/
def is_full (strat : Strategy) (st : BoardState) (n : Nat) : Option Bool :=
  if is_open st.board n then do
    let r ← stratFindRoot strat st.roots n
    let tops ← (List.range st.size).mapM (fun i => stratFindRoot strat st.roots (i + 1))
    pure (tops.contains r)
  else
    some false

/-- Board.percolates of the source: build the root sets of the top row and of
    the bottom row and test whether they intersect. -/
def percolates (strat : Strategy) (st : BoardState) : Option Bool := do
  let tops ← (List.range st.size).mapM (fun i => stratFindRoot strat st.roots (i + 1))
  let bottoms ← (List.range st.size).mapM
    (fun i => stratFindRoot strat st.roots (st.size ^ 2 - st.size + i + 1))
  pure (tops.any (fun r => bottoms.contains r))

/-- The alternative percolation formulation of the spec (present in the source
    only as commented-out code): scan is_full over every bottom-row position. -/
def altPercolates (strat : Strategy) (st : BoardState) : Option Bool := do
  let fulls ← (List.range st.size).mapM
    (fun i => is_full strat st (st.size ^ 2 - st.size + i + 1))
  pure (fulls.any id)

/-- Position arithmetic: a valid (row, column) maps into [1, size ^ 2]. -/
theorem position_bounds {size a b : Nat} (ha1 : 1 ≤ a) (ha2 : a ≤ size)
    (hb1 : 1 ≤ b) (hb2 : b ≤ size) :
    1 ≤ (a - 1) * size + b ∧ (a - 1) * size + b ≤ size ^ 2 := by
  constructor
  · omega
  · have h1 : a - 1 ≤ size - 1 := by omega
    have h2 : (a - 1) * size ≤ (size - 1) * size := Nat.mul_le_mul_right size h1
    have h3 : (size - 1) * size + size = size * size := by
      rw [← Nat.succ_mul]
      congr 1
      omega
    calc (a - 1) * size + b ≤ (size - 1) * size + size := Nat.add_le_add h2 hb2
      _ = size * size := h3
      _ = size ^ 2 := (pow_two size).symm

/-- The guarded neighbors of a valid position are themselves valid positions
    (the up/down guards drop the first/last row, the left/right guards drop the
    first/last column). -/
theorem neighbor_bounds {size a b : Nat} (ha1 : 1 ≤ a) (ha2 : a ≤ size)
    (hb1 : 1 ≤ b) (hb2 : b ≤ size) :
    InRange (size ^ 2) (boardPosition size a b) ∧
    (a ≠ 1 → InRange (size ^ 2) (boardPosition size a b - size)) ∧
    (a ≠ size → InRange (size ^ 2) (boardPosition size a b + size)) ∧
    (b ≠ 1 → InRange (size ^ 2) (boardPosition size a b - 1)) ∧
    (b ≠ size → InRange (size ^ 2) (boardPosition size a b + 1)) := by
  unfold boardPosition
  refine ⟨position_bounds ha1 ha2 hb1 hb2, ?_, ?_, ?_, ?_⟩
  · intro hne
    have e0 : a - 1 - 1 = a - 2 := by omega
    have hbnd := @position_bounds size (a - 1) b (by omega) (by omega) hb1 hb2
    rw [e0] at hbnd
    have e1 : (a - 1) * size = (a - 2) * size + size := by
      rw [← Nat.succ_mul]
      congr 1
      omega
    have e2 : (a - 1) * size + b - size = (a - 2) * size + b := by
      rw [e1]
      omega
    rw [e2]
    exact hbnd
  · intro hne
    have e0 : a + 1 - 1 = a := by omega
    have hbnd := @position_bounds size (a + 1) b (by omega) (by omega) hb1 hb2
    rw [e0] at hbnd
    have e1 : a * size = (a - 1) * size + size := by
      rw [← Nat.succ_mul]
      congr 1
      omega
    rw [e1] at hbnd
    have e2 : (a - 1) * size + size + b = (a - 1) * size + b + size := by omega
    rw [e2] at hbnd
    exact hbnd
  · intro hne
    have hbnd := @position_bounds size a (b - 1) ha1 ha2 (by omega) (by omega)
    have e1 : (a - 1) * size + (b - 1) = (a - 1) * size + b - 1 := by omega
    rw [e1] at hbnd
    exact hbnd
  · intro hne
    have hbnd := @position_bounds size a (b + 1) ha1 ha2 (by omega) (by omega)
    have e1 : (a - 1) * size + (b + 1) = (a - 1) * size + b + 1 := by omega
    rw [e1] at hbnd
    exact hbnd

/-- The open/closed invariant of the Board: the parent of a closed cell is
    itself (closed cells are isolated self-roots), and the parent of an open
    cell is open (trees containing open cells consist of open cells). -/
def OCInv (space : Nat) (board roots : List Nat) : Prop :=
  ∀ n, InRange space n →
    (is_open board n = false → parent roots n = n) ∧
    (is_open board n = true → is_open board (parent roots n) = true)

theorem findRootF_open {space : Nat} {board roots : List Nat}
    (hrc : RangeClosed space roots) (hOC : OCInv space board roots) :
    ∀ {f n r : Nat}, InRange space n → is_open board n = true →
      findRootF roots f n = some r → is_open board r = true := by
  intro f
  induction f with
  | zero =>
    intro n r hn hop h
    by_cases hp : parent roots n = n
    · rw [findRootF_self hp] at h
      cases h
      exact hop
    · rw [findRootF_zero hp] at h
      cases h
  | succ f ih =>
    intro n r hn hop h
    by_cases hp : parent roots n = n
    · rw [findRootF_self hp] at h
      cases h
      exact hop
    · rw [findRootF_succ hp] at h
      exact ih (hrc n hn) ((hOC n hn).2 hop) h

theorem rootOf_open {strat : Strategy} {space : Nat} {board roots : List Nat}
    (hInv : StratInv strat space roots) (hOC : OCInv space board roots)
    {e : Nat} (he : InRange space e) (hopen : is_open board e = true) :
    is_open board (rootOf strat roots e) = true := by
  cases strat with
  | quickFind =>
    show is_open board (parent roots e) = true
    exact (hOC e he).2 hopen
  | quickUnion =>
    obtain ⟨r, hr⟩ := UFInv_find_root_some hInv he
    show is_open board ((find_root roots e).getD 0) = true
    rw [hr]
    exact findRootF_open hInv.2.1 hOC he hopen hr
  | weightedQuickUnion =>
    obtain ⟨r, hr⟩ := UFInv_find_root_some hInv he
    show is_open board ((find_root roots e).getD 0) = true
    rw [hr]
    exact findRootF_open hInv.2.1 hOC he hopen hr
  | pathCompression =>
    obtain ⟨r, hr⟩ := UFInv_find_root_some hInv he
    show is_open board ((find_root roots e).getD 0) = true
    rw [hr]
    exact findRootF_open hInv.2.1 hOC he hopen hr

theorem rootOf_closed {strat : Strategy} {space : Nat} {board roots : List Nat}
    (hOC : OCInv space board roots) {e : Nat} (he : InRange space e)
    (hclosed : is_open board e = false) : rootOf strat roots e = e := by
  have hpe : parent roots e = e := (hOC e he).1 hclosed
  cases strat with
  | quickFind => exact hpe
  | quickUnion =>
    show (find_root roots e).getD 0 = e
    rw [show find_root roots e = some e from findRootF_self hpe _]
    rfl
  | weightedQuickUnion =>
    show (find_root roots e).getD 0 = e
    rw [show find_root roots e = some e from findRootF_self hpe _]
    rfl
  | pathCompression =>
    show (find_root roots e).getD 0 = e
    rw [show find_root roots e = some e from findRootF_self hpe _]
    rfl

/-- A connect between two open cells keeps the open/closed invariant: closed
    cells are never touched and all new parent pointers land on open cells. -/
theorem stratConnect_OC {strat : Strategy} {space : Nat} {board roots ts roots' ts' : List Nat}
    (hInv : StratInv strat space roots) (hOC : OCInv space board roots)
    {a b : Nat} (ha : InRange space a) (hb : InRange space b)
    (hopa : is_open board a = true) (hopb : is_open board b = true)
    (hconn : stratConnect strat (roots, ts) a b = some (roots', ts')) :
    OCInv space board roots' := by
  obtain ⟨roots2, ts2, hconn2, hInv', hch, _⟩ := stratConnect_effect strat hInv ha hb
  rw [hconn] at hconn2
  have heq := Option.some_inj.mp hconn2
  injection heq with h1 h2
  subst h1
  have hopra : is_open board (rootOf strat roots a) = true := rootOf_open hInv hOC ha hopa
  have hoprb : is_open board (rootOf strat roots b) = true := rootOf_open hInv hOC hb hopb
  intro n hn
  constructor
  · intro hclosed
    by_cases hchg : parent roots' n = parent roots n
    · rw [hchg]
      exact (hOC n hn).1 hclosed
    · exfalso
      obtain ⟨⟨g, s, hg, hs⟩, _⟩ := hch n hn hchg
      have hpn : parent roots n = n := (hOC n hn).1 hclosed
      have : s = n := findRootF_det hg (findRootF_self hpn g)
      subst this
      rcases hs with h | h
      · rw [h] at hclosed
        rw [hopra] at hclosed
        cases hclosed
      · rw [h] at hclosed
        rw [hoprb] at hclosed
        cases hclosed
  · intro hopen
    by_cases hchg : parent roots' n = parent roots n
    · rw [hchg]
      exact (hOC n hn).2 hopen
    · obtain ⟨_, hentry⟩ := hch n hn hchg
      rcases hentry with h | h
      · rw [h]
        exact hopra
      · rw [h]
        exact hoprb

theorem is_open_set {board : List Nat} {pos n : Nat} (hpos1 : 1 ≤ pos) (hn1 : 1 ≤ n)
    (hlt : pos - 1 < board.length) :
    is_open (board.set (pos - 1) 1) n = if n = pos then true else is_open board n := by
  by_cases h : n = pos
  · rw [if_pos h, h]
    unfold is_open
    rw [List.getD_eq_getElem?_getD, List.getElem?_set_eq_of_lt 1 hlt]
    rfl
  · rw [if_neg h]
    unfold is_open
    rw [List.getD_eq_getElem?_getD, List.getElem?_set_ne (by omega),
      ← List.getD_eq_getElem?_getD]

/-- Opening a previously closed cell keeps the open/closed invariant (the cell
    was an isolated self-root and becomes an open self-root). -/
theorem OCInv_open_pos {space : Nat} {board roots : List Nat}
    (hrc : RangeClosed space roots) (hOC : OCInv space board roots)
    {pos : Nat} (hpos : InRange space pos) (hlen : board.length = space)
    (hclosed : is_open board pos = false) :
    OCInv space (board.set (pos - 1) 1) roots := by
  have hlt : pos - 1 < board.length := by
    rw [hlen]
    have h1 := hpos.1
    have h2 := hpos.2
    omega
  intro n hn
  have hopn : is_open (board.set (pos - 1) 1) n = if n = pos then true else is_open board n :=
    is_open_set hpos.1 hn.1 hlt
  constructor
  · intro hcl
    rw [hopn] at hcl
    by_cases h : n = pos
    · rw [if_pos h] at hcl
      cases hcl
    · rw [if_neg h] at hcl
      exact (hOC n hn).1 hcl
  · intro hop
    rw [hopn] at hop
    by_cases h : n = pos
    · have hpp : parent roots n = n := (hOC n hn).1 (by rw [h]; exact hclosed)
      rw [hpp, is_open_set hpos.1 hn.1 hlt]
      rw [if_pos h]
    · rw [if_neg h] at hop
      have hpar : is_open board (parent roots n) = true := (hOC n hn).2 hop
      rw [is_open_set hpos.1 (hrc n hn).1 hlt]
      by_cases h2 : parent roots n = pos
      · rw [if_pos h2]
      · rw [if_neg h2]
        exact hpar

/-- The composite Board invariant: the board list has length space, the
    finder's invariant holds, and the open/closed invariant holds. -/
def BoardInv (strat : Strategy) (st : BoardState) : Prop :=
  st.board.length = st.size ^ 2 ∧
  StratInv strat (st.size ^ 2) st.roots ∧
  OCInv (st.size ^ 2) st.board st.roots

/-- One guarded neighbor connection inside Board.__connect. -/
theorem guarded_connect_step {strat : Strategy} {space : Nat} {board : List Nat}
    (rt : List Nat × List Nat) {pos nb : Nat} (c : Prop) [Decidable c]
    (hInv : StratInv strat space rt.1) (hOC : OCInv space board rt.1)
    (hpos : InRange space pos) (hposopen : is_open board pos = true)
    (hnb : c → InRange space nb ∧ is_open board nb = true) :
    ∃ rt', (if c then stratConnect strat rt pos nb else some rt) = some rt' ∧
      StratInv strat space rt'.1 ∧ OCInv space board rt'.1 := by
  by_cases hc : c
  · rw [if_pos hc]
    obtain ⟨hnbr, hnbo⟩ := hnb hc
    obtain ⟨roots', ts', hconn, hInv', _⟩ := stratConnect_effect strat hInv hpos hnbr
    have hconn' : stratConnect strat rt pos nb = some (roots', ts') := hconn
    refine ⟨(roots', ts'), hconn', hInv', ?_⟩
    exact stratConnect_OC hInv hOC hpos hnbr hposopen hnbo hconn
  · rw [if_neg hc]
    exact ⟨rt, rfl, hInv, hOC⟩

/-- Board.__connect succeeds on an invariant state and preserves both the
    finder invariant and the open/closed invariant. -/
theorem board_connect_effect {strat : Strategy} {size : Nat} {board roots : List Nat}
    {a b : Nat} (ts : List Nat) (hInv : StratInv strat (size ^ 2) roots)
    (hOC : OCInv (size ^ 2) board roots)
    (ha1 : 1 ≤ a) (ha2 : a ≤ size) (hb1 : 1 ≤ b) (hb2 : b ≤ size)
    (hopen : is_open board (boardPosition size a b) = true) :
    ∃ rt', board_connect strat size board (roots, ts) a b (boardPosition size a b) = some rt' ∧
      StratInv strat (size ^ 2) rt'.1 ∧ OCInv (size ^ 2) board rt'.1 := by
  obtain ⟨hpos, habove, hbelow, hleft, hright⟩ := neighbor_bounds ha1 ha2 hb1 hb2
  simp only [board_connect]
  obtain ⟨rt1, h1, hInv1, hOC1⟩ :=
    guarded_connect_step (roots, ts)
      (a ≠ 1 ∧ is_open board (boardPosition size a b - size) = true) hInv hOC hpos hopen
      (fun hc => ⟨habove hc.1, hc.2⟩)
  rw [h1, Option.some_bind]
  obtain ⟨rt2, h2, hInv2, hOC2⟩ :=
    guarded_connect_step rt1 (a ≠ size ∧ is_open board (boardPosition size a b + size) = true)
      hInv1 hOC1 hpos hopen (fun hc => ⟨hbelow hc.1, hc.2⟩)
  rw [h2, Option.some_bind]
  obtain ⟨rt3, h3, hInv3, hOC3⟩ :=
    guarded_connect_step rt2 (b ≠ 1 ∧ is_open board (boardPosition size a b - 1) = true)
      hInv2 hOC2 hpos hopen (fun hc => ⟨hleft hc.1, hc.2⟩)
  rw [h3, Option.some_bind]
  obtain ⟨rt4, h4, hInv4, hOC4⟩ :=
    guarded_connect_step rt3 (b ≠ size ∧ is_open board (boardPosition size a b + 1) = true)
      hInv3 hOC3 hpos hopen (fun hc => ⟨hright hc.1, hc.2⟩)
  rw [h4]
  exact ⟨rt4, rfl, hInv4, hOC4⟩

/-- Board.open_gate succeeds on an invariant state, preserves the invariant,
    and behaves as the source describes: a no-op returning false on an open
    cell, otherwise it opens the cell, increments the counter and connects. -/
theorem open_gate_effect {strat : Strategy} {st : BoardState} (hInv : BoardInv strat st)
    {a b : Nat} (ha1 : 1 ≤ a) (ha2 : a ≤ st.size) (hb1 : 1 ≤ b) (hb2 : b ≤ st.size) :
    ∃ res st', open_gate strat st a b = some (res, st') ∧
      BoardInv strat st' ∧ st'.size = st.size ∧
      (res = false → st' = st ∧ is_open st.board (boardPosition st.size a b) = true) ∧
      (res = true → is_open st.board (boardPosition st.size a b) = false ∧
        st'.board = st.board.set (boardPosition st.size a b - 1) 1 ∧
        st'.open_positions = st.open_positions + 1) := by
  obtain ⟨hblen, hsInv, hOC⟩ := hInv
  have hpos : InRange (st.size ^ 2) (boardPosition st.size a b) :=
    (neighbor_bounds ha1 ha2 hb1 hb2).1
  simp only [open_gate]
  by_cases hop : is_open st.board (boardPosition st.size a b) = true
  · rw [if_pos hop]
    exact ⟨false, st, rfl, ⟨hblen, hsInv, hOC⟩, rfl,
      fun _ => ⟨rfl, hop⟩, fun h => by cases h⟩
  · rw [if_neg hop]
    have hclosed : is_open st.board (boardPosition st.size a b) = false := by
      revert hop
      cases is_open st.board (boardPosition st.size a b) <;> simp
    set board1 := st.board.set (boardPosition st.size a b - 1) 1 with hboard1
    have hlt : boardPosition st.size a b - 1 < st.board.length := by
      rw [hblen]
      have h1 := hpos.1
      have h2 := hpos.2
      omega
    have hOC1 : OCInv (st.size ^ 2) board1 st.roots := by
      cases strat with
      | quickFind => exact OCInv_open_pos hsInv.2.1 hOC hpos hblen hclosed
      | quickUnion => exact OCInv_open_pos hsInv.2.1 hOC hpos hblen hclosed
      | weightedQuickUnion => exact OCInv_open_pos hsInv.2.1 hOC hpos hblen hclosed
      | pathCompression => exact OCInv_open_pos hsInv.2.1 hOC hpos hblen hclosed
    have hopen1 : is_open board1 (boardPosition st.size a b) = true := by
      rw [hboard1, is_open_set hpos.1 hpos.1 hlt]
      rw [if_pos rfl]
    obtain ⟨rt', hconn, hInv', hOC'⟩ :=
      board_connect_effect st.tree_size hsInv hOC1 ha1 ha2 hb1 hb2 hopen1
    rw [hconn]
    simp only [Option.bind_eq_bind, Option.some_bind]
    refine ⟨true, _, rfl, ?_, rfl, ?_, fun _ => ⟨hclosed, rfl, rfl⟩⟩
    · refine ⟨?_, hInv', hOC'⟩
      show board1.length = st.size ^ 2
      rw [hboard1, List.length_set]
      exact hblen
    · intro h
      exact Bool.noConfusion h

theorem is_open_replicate (m n : Nat) : is_open (List.replicate m 0) n = false := by
  unfold is_open
  rw [List.getD_eq_getElem?_getD, List.getElem?_replicate]
  split
  · rfl
  · rfl

theorem BoardInv_init (strat : Strategy) (size : Nat) : BoardInv strat (initBoard size) := by
  refine ⟨by simp [initBoard], StratInv_init strat size, ?_⟩
  intro n hn
  constructor
  · intro _
    exact parent_initRoots hn
  · intro hop
    have hb : (initBoard size).board = List.replicate (size ^ 2) 0 := rfl
    rw [hb, is_open_replicate] at hop
    cases hop

/-- Board states reachable from construction by open_gate calls on in-bounds
    rows and columns. -/
inductive BoardReachable (strat : Strategy) (size : Nat) : BoardState → Prop where
  | init : 1 ≤ size → BoardReachable strat size (initBoard size)
  | step {st st' : BoardState} {a b : Nat} {res : Bool} :
      BoardReachable strat size st → 1 ≤ a → a ≤ size → 1 ≤ b → b ≤ size →
      open_gate strat st a b = some (res, st') → BoardReachable strat size st'

theorem BoardReachable_inv {strat : Strategy} {size : Nat} {st : BoardState}
    (h : BoardReachable strat size st) : BoardInv strat st ∧ st.size = size := by
  induction h with
  | init _ => exact ⟨BoardInv_init strat size, rfl⟩
  | step hr ha1 ha2 hb1 hb2 hgate ih =>
    obtain ⟨hInv, hsize⟩ := ih
    obtain ⟨res2, st2, hgate2, hInv2, hsize2, _, _⟩ :=
      open_gate_effect hInv ha1 (by omega) hb1 (by omega)
    rw [hgate] at hgate2
    have heq := Option.some_inj.mp hgate2
    injection heq with h1 h2
    rw [← h2] at hInv2 hsize2
    exact ⟨hInv2, hsize2.trans hsize⟩

/-- open_gate never decreases the open-position counter, on any state. -/
theorem open_positions_mono {strat : Strategy} {st : BoardState} {a b : Nat} {res : Bool}
    {st' : BoardState} (h : open_gate strat st a b = some (res, st')) :
    st.open_positions ≤ st'.open_positions := by
  simp only [open_gate] at h
  by_cases hop : is_open st.board (boardPosition st.size a b) = true
  · rw [if_pos hop] at h
    have heq := Option.some_inj.mp h
    injection heq with h1 h2
    rw [← h2]
  · rw [if_neg hop] at h
    simp only [Option.bind_eq_bind, bind, Option.bind_eq_some, Option.pure_def] at h
    obtain ⟨rt, _, h2⟩ := h
    have heq := Option.some_inj.mp h2
    injection heq with h3 h4
    rw [← h4]
    exact Nat.le_succ _

/-- C5: calling open_gate twice on the same in-bounds, not-yet-open (row,
    column) returns true then false; the counter is incremented exactly once;
    the second call returns the state unchanged (board, roots and counter);
    and open_positions never decreases across any open_gate call. -/
theorem claim_C5 {strat : Strategy} {size : Nat} {st : BoardState}
    (hreach : BoardReachable strat size st) {a b : Nat}
    (ha1 : 1 ≤ a) (ha2 : a ≤ st.size) (hb1 : 1 ≤ b) (hb2 : b ≤ st.size)
    (hclosed : is_open st.board (boardPosition st.size a b) = false) :
    (∃ st1, open_gate strat st a b = some (true, st1) ∧
      st1.open_positions = st.open_positions + 1 ∧
      open_gate strat st1 a b = some (false, st1)) ∧
    (∀ st2 st3 : BoardState, ∀ res : Bool, open_gate strat st2 a b = some (res, st3) →
      st2.open_positions ≤ st3.open_positions) := by
  obtain ⟨hInv, hsize⟩ := BoardReachable_inv hreach
  refine ⟨?_, fun st2 st3 res h => open_positions_mono h⟩
  obtain ⟨res, st1, hgate, hInv1, hsize1, hfalse, htrue⟩ := open_gate_effect hInv ha1 ha2 hb1 hb2
  have hres : res = true := by
    cases res with
    | false =>
      obtain ⟨_, hcontra⟩ := hfalse rfl
      rw [hclosed] at hcontra
      cases hcontra
    | true => rfl
  rw [hres] at hgate
  obtain ⟨_, hboard1, hcount⟩ := htrue hres
  refine ⟨st1, hgate, hcount, ?_⟩
  have hpos : InRange (st.size ^ 2) (boardPosition st.size a b) :=
    (neighbor_bounds ha1 ha2 hb1 hb2).1
  have hopen1 : is_open st1.board (boardPosition st1.size a b) = true := by
    rw [hsize1, hboard1, is_open_set hpos.1 hpos.1 (by
      have hblen := hInv.1
      have h1 := hpos.1
      have h2 := hpos.2
      omega)]
    rw [if_pos rfl]
  simp only [open_gate]
  rw [if_pos hopen1]

theorem claim_C5_witness :
    (∃ st1, open_gate Strategy.quickFind (initBoard 1) 1 1 = some (true, st1) ∧
      st1.open_positions = (initBoard 1).open_positions + 1 ∧
      open_gate Strategy.quickFind st1 1 1 = some (false, st1)) ∧
    (∀ st2 st3 : BoardState, ∀ res : Bool,
      open_gate Strategy.quickFind st2 1 1 = some (res, st3) →
      st2.open_positions ≤ st3.open_positions) :=
  claim_C5 (BoardReachable.init (by decide)) (by decide) (by decide) (by decide)
    (by decide) (by decide)

theorem bool_not_true {b : Bool} (h : ¬ b = true) : b = false := by
  cases b
  · rfl
  · exact absurd rfl h

theorem mapM_eq_some_map {α β : Type} (f : α → Option β) (g : α → β) :
    ∀ l : List α, (∀ x ∈ l, f x = some (g x)) → l.mapM f = some (l.map g) := by
  intro l
  induction l with
  | nil => intro _; rfl
  | cons x xs ih =>
    intro h
    rw [List.mapM_cons, h x (List.mem_cons_self _ _),
      ih (fun y hy => h y (List.mem_cons_of_mem _ hy))]
    rfl

theorem top_inRange {size i : Nat} (hi : i < size) : InRange (size ^ 2) (i + 1) := by
  have hs : size ≤ size ^ 2 := by
    rw [pow_two]
    exact Nat.le_mul_of_pos_left size (by omega)
  exact ⟨by omega, by omega⟩

theorem bottom_inRange {size j : Nat} (hj : j < size) (hs1 : 1 ≤ size) :
    InRange (size ^ 2) (size ^ 2 - size + j + 1) := by
  have hs : size ≤ size ^ 2 := by
    rw [pow_two]
    exact Nat.le_mul_of_pos_left size (by omega)
  exact ⟨by omega, by omega⟩

/-- Computation of Board.percolates under the invariant: it decides whether
    some top-row element and some bottom-row element share a root. -/
theorem percolates_spec {strat : Strategy} {st : BoardState} (hInv : BoardInv strat st) :
    percolates strat st = some (decide (∃ i, i < st.size ∧ ∃ j, j < st.size ∧
      rootOf strat st.roots (i + 1) =
        rootOf strat st.roots (st.size ^ 2 - st.size + j + 1))) := by
  obtain ⟨hblen, hsInv, hOC⟩ := hInv
  rw [percolates]
  rw [mapM_eq_some_map _ (fun i => rootOf strat st.roots (i + 1)) _ (fun i hi =>
    stratFindRoot_eq hsInv (top_inRange (List.mem_range.mp hi)))]
  simp only [Option.bind_eq_bind, Option.some_bind]
  rw [mapM_eq_some_map _ (fun i => rootOf strat st.roots (st.size ^ 2 - st.size + i + 1)) _
    (fun i hi => stratFindRoot_eq hsInv
      (bottom_inRange (List.mem_range.mp hi) (by have := List.mem_range.mp hi; omega)))]
  simp only [Option.some_bind]
  refine congrArg some ?_
  rw [Bool.eq_iff_iff, decide_eq_true_eq]
  simp only [List.any_eq_true, List.mem_map, List.mem_range, List.elem_iff]
  constructor
  · rintro ⟨r, ⟨i, hi, rfl⟩, ⟨j, hj, hgj⟩⟩
    exact ⟨i, hi, j, hj, hgj.symm⟩
  · rintro ⟨i, hi, j, hj, hfg⟩
    exact ⟨_, ⟨i, hi, rfl⟩, ⟨j, hj, hfg.symm⟩⟩

/-- Computation of Board.is_full under the invariant. -/
theorem is_full_spec {strat : Strategy} {st : BoardState} (hInv : BoardInv strat st)
    {n : Nat} (hn : InRange (st.size ^ 2) n) :
    is_full strat st n = some (is_open st.board n &&
      decide (∃ i, i < st.size ∧
        rootOf strat st.roots n = rootOf strat st.roots (i + 1))) := by
  obtain ⟨hblen, hsInv, hOC⟩ := hInv
  rw [is_full]
  by_cases hop : is_open st.board n = true
  · rw [if_pos hop, stratFindRoot_eq hsInv hn]
    simp only [Option.bind_eq_bind, Option.some_bind]
    rw [mapM_eq_some_map _ (fun i => rootOf strat st.roots (i + 1)) _ (fun i hi =>
      stratFindRoot_eq hsInv (top_inRange (List.mem_range.mp hi)))]
    simp only [Option.some_bind]
    refine congrArg some ?_
    rw [hop, Bool.true_and]
    rw [Bool.eq_iff_iff, decide_eq_true_eq]
    simp only [List.elem_iff, List.mem_map, List.mem_range]
    constructor
    · rintro ⟨i, hi, hr⟩
      exact ⟨i, hi, hr.symm⟩
    · rintro ⟨i, hi, hr⟩
      exact ⟨i, hi, hr.symm⟩
  · rw [if_neg hop, bool_not_true hop, Bool.false_and]

/-- Computation of the alternative formulation (is_full over the bottom row). -/
theorem altPercolates_spec {strat : Strategy} {st : BoardState} (hInv : BoardInv strat st) :
    altPercolates strat st = some (decide (∃ j, j < st.size ∧
      (is_open st.board (st.size ^ 2 - st.size + j + 1) = true ∧
        ∃ i, i < st.size ∧
          rootOf strat st.roots (st.size ^ 2 - st.size + j + 1) =
            rootOf strat st.roots (i + 1)))) := by
  rw [altPercolates]
  rw [mapM_eq_some_map _ (fun j => is_open st.board (st.size ^ 2 - st.size + j + 1) &&
      decide (∃ i, i < st.size ∧
        rootOf strat st.roots (st.size ^ 2 - st.size + j + 1) =
          rootOf strat st.roots (i + 1))) _
    (fun j hj => is_full_spec hInv
      (bottom_inRange (List.mem_range.mp hj) (by have := List.mem_range.mp hj; omega)))]
  simp only [Option.bind_eq_bind, Option.some_bind]
  refine congrArg some ?_
  rw [Bool.eq_iff_iff, decide_eq_true_eq]
  simp only [List.any_eq_true, id, List.mem_map, List.mem_range]
  constructor
  · rintro ⟨x, ⟨j, hj, rfl⟩, hx⟩
    rw [Bool.and_eq_true, decide_eq_true_eq] at hx
    exact ⟨j, hj, hx.1, hx.2⟩
  · rintro ⟨j, hj, hopen, hex⟩
    refine ⟨_, ⟨j, hj, rfl⟩, ?_⟩
    rw [Bool.and_eq_true, decide_eq_true_eq]
    exact ⟨hopen, hex⟩

/-- Two distinct elements sharing a root are both open (closed cells are
    isolated self-roots, and roots of open trees are open). -/
theorem same_root_open {strat : Strategy} {space : Nat} {board roots : List Nat}
    (hsInv : StratInv strat space roots) (hOC : OCInv space board roots)
    {x y : Nat} (hx : InRange space x) (hy : InRange space y) (hne : x ≠ y)
    (hroot : rootOf strat roots x = rootOf strat roots y) :
    is_open board x = true ∧ is_open board y = true := by
  by_cases hox : is_open board x = true
  · by_cases hoy : is_open board y = true
    · exact ⟨hox, hoy⟩
    · exfalso
      have hcy : is_open board y = false := bool_not_true hoy
      have h1 : rootOf strat roots y = y := rootOf_closed hOC hy hcy
      have h2 := rootOf_open hsInv hOC hx hox
      rw [hroot, h1] at h2
      rw [h2] at hcy
      cases hcy
  · exfalso
    have hcx : is_open board x = false := bool_not_true hox
    have h1 : rootOf strat roots x = x := rootOf_closed hOC hx hcx
    by_cases hoy : is_open board y = true
    · have h2 := rootOf_open hsInv hOC hy hoy
      rw [← hroot, h1] at h2
      rw [h2] at hcx
      cases hcx
    · have hcy : is_open board y = false := bool_not_true hoy
      have h2 : rootOf strat roots y = y := rootOf_closed hOC hy hcy
      rw [h1, h2] at hroot
      exact hne hroot

/-- C2 counterexample: on the reachable size-1 Board with its single cell still
    closed, percolates() returns true (the cell is its own root in both
    boundary rows) while the is_full scan of the bottom row returns false. -/
theorem claim_C2_counterexample :
    BoardReachable Strategy.quickFind 1 (initBoard 1) ∧
    percolates Strategy.quickFind (initBoard 1) = some true ∧
    altPercolates Strategy.quickFind (initBoard 1) = some false :=
  ⟨BoardReachable.init (by decide), by decide, by decide⟩

/-- C2 (amended): on every Board of size at least 2 reachable by open_gate
    calls, percolates() returns the same boolean as the bottom-row is_full
    scan; at size 1 the two differ exactly while the single cell is closed. -/
theorem claim_C2_amended {strat : Strategy} {size : Nat} {st : BoardState}
    (hreach : BoardReachable strat size st) (hs2 : 2 ≤ size) :
    percolates strat st = altPercolates strat st := by
  obtain ⟨hInv, hsize⟩ := BoardReachable_inv hreach
  have hs2' : 2 ≤ st.size := by omega
  rw [percolates_spec hInv, altPercolates_spec hInv]
  refine congrArg some ?_
  rw [decide_eq_decide]
  obtain ⟨hblen, hsInv, hOC⟩ := hInv
  have hss : 2 * st.size ≤ st.size ^ 2 := by
    rw [pow_two]
    exact Nat.mul_le_mul_right _ hs2'
  constructor
  · rintro ⟨i, hi, j, hj, hroot⟩
    have ht : InRange (st.size ^ 2) (i + 1) := top_inRange hi
    have hbo : InRange (st.size ^ 2) (st.size ^ 2 - st.size + j + 1) :=
      bottom_inRange hj (by omega)
    have hne : i + 1 ≠ st.size ^ 2 - st.size + j + 1 := by omega
    obtain ⟨hopent, hopenb⟩ := same_root_open hsInv hOC ht hbo hne hroot
    exact ⟨j, hj, hopenb, i, hi, hroot.symm⟩
  · rintro ⟨j, hj, _, i, hi, hroot⟩
    exact ⟨i, hi, j, hj, hroot.symm⟩

theorem claim_C2_amended_witness :
    percolates Strategy.quickFind (initBoard 2) =
      altPercolates Strategy.quickFind (initBoard 2) :=
  claim_C2_amended (BoardReachable.init (by decide)) (by decide)

/-- C10: on every reachable Board state, a closed cell is a self-rooted
    singleton that no other element points at; the root of every open cell is
    itself open; and the fresh size-1 Board already percolates through the
    single cell's self-root for every strategy. -/
theorem claim_C10 {strat : Strategy} {size : Nat} {st : BoardState}
    (hreach : BoardReachable strat size st) :
    (∀ e, InRange (st.size ^ 2) e → is_open st.board e = false →
      parent st.roots e = e ∧
      (∀ f, InRange (st.size ^ 2) f → f ≠ e → parent st.roots f ≠ e)) ∧
    (∀ e, InRange (st.size ^ 2) e → is_open st.board e = true →
      is_open st.board (rootOf strat st.roots e) = true) ∧
    (∀ s : Strategy, percolates s (initBoard 1) = some true) := by
  obtain ⟨⟨hblen, hsInv, hOC⟩, hsize⟩ := BoardReachable_inv hreach
  refine ⟨?_, ?_, ?_⟩
  · intro e he hcl
    refine ⟨(hOC e he).1 hcl, ?_⟩
    intro f hf hne hpe
    by_cases hof : is_open st.board f = true
    · have h2 := (hOC f hf).2 hof
      rw [hpe] at h2
      rw [h2] at hcl
      cases hcl
    · have hff : parent st.roots f = f := (hOC f hf).1 (bool_not_true hof)
      rw [hpe] at hff
      exact hne hff.symm
  · intro e he hop
    exact rootOf_open hsInv hOC he hop
  · intro s
    cases s <;> decide

theorem claim_C10_witness :
    (∀ e, InRange ((initBoard 1).size ^ 2) e → is_open (initBoard 1).board e = false →
      parent (initBoard 1).roots e = e ∧
      (∀ f, InRange ((initBoard 1).size ^ 2) f → f ≠ e →
        parent (initBoard 1).roots f ≠ e)) ∧
    (∀ e, InRange ((initBoard 1).size ^ 2) e → is_open (initBoard 1).board e = true →
      is_open (initBoard 1).board (rootOf Strategy.quickFind (initBoard 1).roots e) = true) ∧
    (∀ s : Strategy, percolates s (initBoard 1) = some true) :=
  claim_C10 (BoardReachable.init (by decide))

/-- C1 counterexample: on a fresh WeightedQuickUnion state of size 2 both tree
    sizes are 1 (a tie); union(1, 2) lands in the else branch and reparents
    q = 2 under p = 1 (roots becomes [1, 1, 3, 4]), not p under q as the claim
    states (roots[p - 1] never becomes 2). -/
theorem claim_C1_counterexample :
    (initTreeSize 2).getD 0 0 = (initTreeSize 2).getD 1 0 ∧
    (wqu_union (initRoots 2) (initTreeSize 2) 1 2).1 = [1, 1, 3, 4] ∧
    parent (wqu_union (initRoots 2) (initTreeSize 2) 1 2).1 1 ≠ 2 ∧
    parent (wqu_union (initRoots 2) (initTreeSize 2) 1 2).1 2 = 1 := by
  decide

/-- C1 (amended): WeightedQuickUnion.union(p, q) on two root elements attaches
    the smaller tree under the larger tree's root — with a tie (equal sizes)
    broken by reparenting q under p — leaves every other parent pointer
    unchanged, and updates the surviving root's tree-size entry to the sum of
    the two tree sizes, leaving every other tree-size entry unchanged. -/
theorem claim_C1_amended {space : Nat} {roots ts : List Nat}
    (hlen : roots.length = space) (htslen : ts.length = space)
    {p q : Nat} (hp : InRange space p) (hq : InRange space q)
    (_hrootp : parent roots p = p) (_hrootq : parent roots q = q) (_hpq : p ≠ q) :
    (ts.getD (p - 1) 0 < ts.getD (q - 1) 0 →
      parent (wqu_union roots ts p q).1 p = q ∧
      (∀ x, 1 ≤ x → x ≠ p → parent (wqu_union roots ts p q).1 x = parent roots x) ∧
      (wqu_union roots ts p q).2.getD (q - 1) 0 =
        ts.getD (q - 1) 0 + ts.getD (p - 1) 0 ∧
      (∀ x, 1 ≤ x → x ≠ q →
        (wqu_union roots ts p q).2.getD (x - 1) 0 = ts.getD (x - 1) 0)) ∧
    (¬ ts.getD (p - 1) 0 < ts.getD (q - 1) 0 →
      parent (wqu_union roots ts p q).1 q = p ∧
      (∀ x, 1 ≤ x → x ≠ q → parent (wqu_union roots ts p q).1 x = parent roots x) ∧
      (wqu_union roots ts p q).2.getD (p - 1) 0 =
        ts.getD (p - 1) 0 + ts.getD (q - 1) 0 ∧
      (∀ x, 1 ≤ x → x ≠ p →
        (wqu_union roots ts p q).2.getD (x - 1) 0 = ts.getD (x - 1) 0)) := by
  have hplen : p - 1 < roots.length := by
    rw [hlen]
    have h1 := hp.1
    have h2 := hp.2
    omega
  have hqlen : q - 1 < roots.length := by
    rw [hlen]
    have h1 := hq.1
    have h2 := hq.2
    omega
  have hptslen : p - 1 < ts.length := by rw [htslen, ← hlen]; exact hplen
  have hqtslen : q - 1 < ts.length := by rw [htslen, ← hlen]; exact hqlen
  constructor
  · intro hts
    have h1 : (wqu_union roots ts p q).1 = union roots p q := by
      rw [wqu_union, if_pos hts]
    have h2 : (wqu_union roots ts p q).2 =
        ts.set (q - 1) (ts.getD (q - 1) 0 + ts.getD (p - 1) 0) := by
      rw [wqu_union, if_pos hts]
    rw [h1, h2]
    refine ⟨parent_set_self hplen, ?_, ?_, ?_⟩
    · intro x hx1 hxp
      exact parent_set_other hp.1 hx1 hxp
    · show parent (ts.set (q - 1) (ts.getD (q - 1) 0 + ts.getD (p - 1) 0)) q =
        ts.getD (q - 1) 0 + ts.getD (p - 1) 0
      exact parent_set_self hqtslen
    · intro x hx1 hxq
      show parent (ts.set (q - 1) (ts.getD (q - 1) 0 + ts.getD (p - 1) 0)) x =
        parent ts x
      exact parent_set_other hq.1 hx1 hxq
  · intro hts
    have h1 : (wqu_union roots ts p q).1 = union roots q p := by
      rw [wqu_union, if_neg hts]
    have h2 : (wqu_union roots ts p q).2 =
        ts.set (p - 1) (ts.getD (p - 1) 0 + ts.getD (q - 1) 0) := by
      rw [wqu_union, if_neg hts]
    rw [h1, h2]
    refine ⟨parent_set_self hqlen, ?_, ?_, ?_⟩
    · intro x hx1 hxq
      exact parent_set_other hq.1 hx1 hxq
    · show parent (ts.set (p - 1) (ts.getD (p - 1) 0 + ts.getD (q - 1) 0)) p =
        ts.getD (p - 1) 0 + ts.getD (q - 1) 0
      exact parent_set_self hptslen
    · intro x hx1 hxp
      show parent (ts.set (p - 1) (ts.getD (p - 1) 0 + ts.getD (q - 1) 0)) x =
        parent ts x
      exact parent_set_other hp.1 hx1 hxp

theorem claim_C1_amended_witness :
    ((initTreeSize 2).getD 0 0 < (initTreeSize 2).getD 1 0 →
      parent (wqu_union (initRoots 2) (initTreeSize 2) 1 2).1 1 = 2 ∧
      (∀ x, 1 ≤ x → x ≠ 1 →
        parent (wqu_union (initRoots 2) (initTreeSize 2) 1 2).1 x =
          parent (initRoots 2) x) ∧
      (wqu_union (initRoots 2) (initTreeSize 2) 1 2).2.getD 1 0 =
        (initTreeSize 2).getD 1 0 + (initTreeSize 2).getD 0 0 ∧
      (∀ x, 1 ≤ x → x ≠ 2 →
        (wqu_union (initRoots 2) (initTreeSize 2) 1 2).2.getD (x - 1) 0 =
          (initTreeSize 2).getD (x - 1) 0)) ∧
    (¬ (initTreeSize 2).getD 0 0 < (initTreeSize 2).getD 1 0 →
      parent (wqu_union (initRoots 2) (initTreeSize 2) 1 2).1 2 = 1 ∧
      (∀ x, 1 ≤ x → x ≠ 2 →
        parent (wqu_union (initRoots 2) (initTreeSize 2) 1 2).1 x =
          parent (initRoots 2) x) ∧
      (wqu_union (initRoots 2) (initTreeSize 2) 1 2).2.getD 0 0 =
        (initTreeSize 2).getD 0 0 + (initTreeSize 2).getD 1 0 ∧
      (∀ x, 1 ≤ x → x ≠ 1 →
        (wqu_union (initRoots 2) (initTreeSize 2) 1 2).2.getD (x - 1) 0 =
          (initTreeSize 2).getD (x - 1) 0)) :=
  @claim_C1_amended 4 (initRoots 2) (initTreeSize 2) (by decide) (by decide) 1 2
    (by decide) (by decide) (by decide) (by decide) (by decide)

/-- C8: for the QuickFind variant, after union(p, q) every element e in
    [1, space] whose stored root was p now stores q, every other element's
    stored root is unchanged, and find_root (the single direct lookup) returns
    q for such e. -/
theorem claim_C8 {space : Nat} {roots : List Nat} (hlen : roots.length = space)
    {p q e : Nat} (he : InRange space e) :
    (qf_find_root roots e = p →
      qf_union roots p q = roots.map (fun v => if v = p then q else v) ∧
      qf_find_root (qf_union roots p q) e = q) ∧
    (qf_find_root roots e ≠ p →
      qf_find_root (qf_union roots p q) e = qf_find_root roots e) := by
  have hlt : e - 1 < roots.length := by
    rw [hlen]
    have h1 := he.1
    have h2 := he.2
    omega
  have heff : qf_find_root (qf_union roots p q) e =
      if qf_find_root roots e = p then q else qf_find_root roots e :=
    parent_qf_union hlt
  constructor
  · intro hre
    refine ⟨rfl, ?_⟩
    rw [heff, if_pos hre]
  · intro hre
    rw [heff, if_neg hre]

theorem claim_C8_witness :
    (qf_find_root [1, 1, 3, 4] 2 = 1 →
      qf_union [1, 1, 3, 4] 1 3 = [1, 1, 3, 4].map (fun v => if v = 1 then 3 else v) ∧
      qf_find_root (qf_union [1, 1, 3, 4] 1 3) 2 = 3) ∧
    (qf_find_root [1, 1, 3, 4] 2 ≠ 1 →
      qf_find_root (qf_union [1, 1, 3, 4] 1 3) 2 = qf_find_root [1, 1, 3, 4] 2) :=
  @claim_C8 4 [1, 1, 3, 4] (by decide) 1 3 2 (by decide)

/-- The 1-D positions whose openness Board.__connect consults (and to which it
    may connect the newly opened position), in the order the source tries
    them: above when a != 1, below when a != size, left when b != 1, right
    when b != size. -/
def connect_targets (size a b : Nat) : List Nat :=
  let position := boardPosition size a b
  (if a ≠ 1 then [position - size] else []) ++
  (if a ≠ size then [position + size] else []) ++
  (if b ≠ 1 then [position - 1] else []) ++
  (if b ≠ size then [position + 1] else [])

/-- Folding the guarded connections over a list of candidate neighbors. -/
def connect_fold (strat : Strategy) (board : List Nat) (pos : Nat) :
    List Nat → List Nat × List Nat → Option (List Nat × List Nat)
  | [], rt => some rt
  | nb :: rest, rt =>
    (if is_open board nb then stratConnect strat rt pos nb else some rt).bind
      (connect_fold strat board pos rest)

/-- Board.__connect is exactly the guarded connection fold over
    connect_targets: it touches no position other than those. -/
theorem board_connect_eq_fold (strat : Strategy) (size : Nat) (board : List Nat)
    (rt : List Nat × List Nat) (a b : Nat) :
    board_connect strat size board rt a b (boardPosition size a b) =
      connect_fold strat board (boardPosition size a b) (connect_targets size a b) rt := by
  rw [board_connect, connect_targets]
  by_cases h1 : a ≠ 1 <;> by_cases h2 : a ≠ size <;> by_cases h3 : b ≠ 1 <;>
    by_cases h4 : b ≠ size <;>
      simp [h1, h2, h3, h4, connect_fold, Option.some_bind]

/-- C9: every position Board.__connect reads or unions for an in-bounds
    (row, column) lies in [1, space]: the opened position itself, and each
    guarded neighbor; on a size-3 board, opening corner (1, 1) consults only
    below (position 4) and right (position 2). -/
theorem claim_C9 {size a b : Nat} (ha1 : 1 ≤ a) (ha2 : a ≤ size)
    (hb1 : 1 ≤ b) (hb2 : b ≤ size) :
    InRange (size ^ 2) (boardPosition size a b) ∧
    (∀ n ∈ connect_targets size a b, InRange (size ^ 2) n) ∧
    connect_targets 3 1 1 = [4, 2] := by
  obtain ⟨hpos, habove, hbelow, hleft, hright⟩ := neighbor_bounds ha1 ha2 hb1 hb2
  refine ⟨hpos, ?_, by decide⟩
  intro n hn
  simp only [connect_targets, List.mem_append] at hn
  rcases hn with ((hA | hB) | hC) | hD
  · by_cases hc : a ≠ 1
    · rw [if_pos hc] at hA
      simp only [List.mem_singleton] at hA
      rw [hA]
      exact habove hc
    · rw [if_neg hc] at hA
      cases hA
  · by_cases hc : a ≠ size
    · rw [if_pos hc] at hB
      simp only [List.mem_singleton] at hB
      rw [hB]
      exact hbelow hc
    · rw [if_neg hc] at hB
      cases hB
  · by_cases hc : b ≠ 1
    · rw [if_pos hc] at hC
      simp only [List.mem_singleton] at hC
      rw [hC]
      exact hleft hc
    · rw [if_neg hc] at hC
      cases hC
  · by_cases hc : b ≠ size
    · rw [if_pos hc] at hD
      simp only [List.mem_singleton] at hD
      rw [hD]
      exact hright hc
    · rw [if_neg hc] at hD
      cases hD

theorem claim_C9_witness :
    InRange (3 ^ 2) (boardPosition 3 1 1) ∧
    (∀ n ∈ connect_targets 3 1 1, InRange (3 ^ 2) n) ∧
    connect_targets 3 1 1 = [4, 2] :=
  claim_C9 (by decide) (by decide) (by decide) (by decide)

theorem foldConnect_reachable {strat : Strategy} {size : Nat} :
    ∀ (moves : List (Nat × Nat)) (rt0 rt : List Nat × List Nat),
      (∀ m ∈ moves, InRange (size ^ 2) m.1 ∧ InRange (size ^ 2) m.2) →
      UFReachable strat size rt0 →
      moves.foldlM (fun rt m => stratConnect strat rt m.1 m.2) rt0 = some rt →
      UFReachable strat size rt := by
  intro moves
  induction moves with
  | nil =>
    intro rt0 rt _ h0 hfold
    rw [List.foldlM_nil] at hfold
    have := Option.some_inj.mp hfold
    rw [← this]
    exact h0
  | cons m rest ih =>
    intro rt0 rt hm h0 hfold
    rw [List.foldlM_cons] at hfold
    obtain ⟨rt1, h1, h2⟩ := Option.bind_eq_some.mp hfold
    exact ih rt1 rt (fun x hx => hm x (List.mem_cons_of_mem _ hx))
      (UFReachable.step h0 (hm m (List.mem_cons_self _ _)).1
        (hm m (List.mem_cons_self _ _)).2 h1) h2

theorem fix_at_zero {r : List Nat} {x : Nat} (h : parent r x = x) :
    ∃ k, k ≤ 2 ∧ parent r ((parent r)^[k] x) = (parent r)^[k] x :=
  ⟨0, by omega, by simpa using h⟩

theorem fix_at_one {r : List Nat} {x y : Nat} (h1 : parent r x = y) (h2 : parent r y = y) :
    ∃ k, k ≤ 2 ∧ parent r ((parent r)^[k] x) = (parent r)^[k] x :=
  ⟨1, by omega, by rw [Function.iterate_one, h1]; exact h2⟩

theorem fix_at_two {r : List Nat} {x y z : Nat} (h1 : parent r x = y)
    (h2 : parent r y = z) (h3 : parent r z = z) :
    ∃ k, k ≤ 2 ∧ parent r ((parent r)^[k] x) = (parent r)^[k] x := by
  refine ⟨2, by omega, ?_⟩
  have hit : (parent r)^[2] x = z := by
    rw [Function.iterate_succ_apply', Function.iterate_one, h1, h2]
  rw [hit]
  exact h3

set_option maxHeartbeats 4000000 in
/-- C7 counterexample: a PathCompression state reachable by 15 connect calls
    on a fresh size-4 object, on which connect(6, 7) succeeds (the operands
    are already connected, so the call neither compresses nor unions) and
    afterwards the root-chain from 6 still has length 3 (6 -> 5 -> 1 -> 9),
    exceeding the claimed bound of 2. -/
theorem claim_C7_counterexample :
    UFReachable Strategy.pathCompression 4
      ([9, 1, 1, 1, 1, 5, 5, 1, 9, 9, 9, 9, 9, 13, 13, 9],
       [8, 1, 2, 1, 4, 1, 2, 1, 16, 1, 2, 1, 4, 1, 2, 1]) ∧
    stratConnect Strategy.pathCompression
      ([9, 1, 1, 1, 1, 5, 5, 1, 9, 9, 9, 9, 9, 13, 13, 9],
       [8, 1, 2, 1, 4, 1, 2, 1, 16, 1, 2, 1, 4, 1, 2, 1]) 6 7 =
      some ([9, 1, 1, 1, 1, 5, 5, 1, 9, 9, 9, 9, 9, 13, 13, 9],
            [8, 1, 2, 1, 4, 1, 2, 1, 16, 1, 2, 1, 4, 1, 2, 1]) ∧
    (∀ k, k ≤ 2 →
      parent [9, 1, 1, 1, 1, 5, 5, 1, 9, 9, 9, 9, 9, 13, 13, 9]
          ((parent [9, 1, 1, 1, 1, 5, 5, 1, 9, 9, 9, 9, 9, 13, 13, 9])^[k] 6) ≠
        (parent [9, 1, 1, 1, 1, 5, 5, 1, 9, 9, 9, 9, 9, 13, 13, 9])^[k] 6) := by
  refine ⟨?_, by decide, by decide⟩
  exact foldConnect_reachable
    [(1,2),(3,4),(2,4),(5,6),(7,8),(6,8),(4,8),(9,10),(11,12),(10,12),
     (13,14),(15,16),(14,16),(12,16),(16,8)]
    (initRoots 4, initTreeSize 4) _ (by decide) (UFReachable.init (by decide)) (by decide)

/-- C7 (amended): after any PathCompression connect(a, b) call in which the
    two operands' roots differed (so that compression and union were actually
    performed), the root-chain from a — and likewise from b — reaches the
    tree's root within at most 2 steps. -/
theorem claim_C7_amended {space : Nat} {roots ts : List Nat} (hInv : UFInv space roots)
    {a b : Nat} (ha : InRange space a) (hb : InRange space b)
    {p q : Nat} (hpa : find_root roots a = some p) (hpb : find_root roots b = some q)
    (hpq : p ≠ q) {roots' ts' : List Nat}
    (hconn : pc_connect roots ts a b = some (roots', ts')) :
    (∃ k, k ≤ 2 ∧ parent roots' ((parent roots')^[k] a) = (parent roots')^[k] a) ∧
    (∃ k, k ≤ 2 ∧ parent roots' ((parent roots')^[k] b) = (parent roots')^[k] b) := by
  have hpa' : findRootF roots roots.length a = some p := hpa
  have hpb' : findRootF roots roots.length b = some q := hpb
  have hp : InRange space p := findRootF_inRange hInv.2.1 ha hpa'
  have hq : InRange space q := findRootF_inRange hInv.2.1 hb hpb'
  have hrootp : parent roots p = p := findRootF_root hpa'
  have hrootq : parent roots q = q := findRootF_root hpb'
  rw [pc_connect, hpa, hpb] at hconn
  simp only [Option.bind_eq_bind, Option.some_bind] at hconn
  rw [if_pos hpq] at hconn
  obtain ⟨roots1, hc1, hInv1, hpres1, hpa1, hrootp1, hch1⟩ := path_compression_spec hInv ha hpa
  have hfb1 : find_root roots1 b = some q := by rw [hpres1 b hb]; exact hpb
  obtain ⟨roots2, hc2, hInv2, hpres2, hpb2, hrootq2, hch2⟩ := path_compression_spec hInv1 hb hfb1
  rw [hc1] at hconn
  simp only [Option.some_bind] at hconn
  rw [hc2] at hconn
  simp only [Option.some_bind] at hconn
  have heq : wqu_union roots2 ts p q = (roots', ts') := Option.some_inj.mp hconn
  have hroots' : roots' = (wqu_union roots2 ts p q).1 := by rw [heq]
  -- a and b are distinct from the opposite roots
  have hbp : b ≠ p := by
    intro hh
    rw [hh] at hpb
    have : find_root roots p = some p := findRootF_self hrootp _
    rw [this] at hpb
    exact hpq (Option.some_inj.mp hpb)
  have haq : a ≠ q := by
    intro hh
    rw [hh] at hpa
    have : find_root roots q = some q := findRootF_self hrootq _
    rw [this] at hpa
    exact hpq (Option.some_inj.mp hpa).symm
  -- p is still a root in roots2, and a's entry survives the second compression
  have hfa1 : find_root roots1 a = some p := by rw [hpres1 a ha]; exact hpa
  have hrootp2 : parent roots2 p = p := by
    by_cases hchg : parent roots2 p = parent roots1 p
    · rw [hchg]
      exact hrootp1
    · obtain ⟨⟨g, hg⟩, _⟩ := hch2 p hp.1 hchg
      have h1 : find_root roots1 p = some p :=
        find_root_of_findRootF hInv1 hp (findRootF_self hrootp1 roots1.length)
      have h2 : find_root roots1 p = some q := find_root_of_findRootF hInv1 hp hg
      rw [h1] at h2
      exact absurd (Option.some_inj.mp h2) hpq
  have hpa2 : parent roots2 a = p ∨ a = p := by
    rcases hpa1 with hpar | hap
    · left
      by_cases hchg : parent roots2 a = parent roots1 a
      · rw [hchg]
        exact hpar
      · obtain ⟨⟨g, hg⟩, _⟩ := hch2 a ha.1 hchg
        have h2 : find_root roots1 a = some q := find_root_of_findRootF hInv1 ha hg
        rw [hfa1] at h2
        exact absurd (Option.some_inj.mp h2) hpq
    · right
      exact hap
  have hlen2p : p - 1 < roots2.length := by
    have := hInv2.1
    have h1 := hp.1
    have h2 := hp.2
    omega
  have hlen2q : q - 1 < roots2.length := by
    have := hInv2.1
    have h1 := hq.1
    have h2 := hq.2
    omega
  rcases wqu_union_fst roots2 ts p q with hfst | hfst
  · -- roots' = roots2 with p reparented under q
    rw [hroots', hfst]
    have hppar : parent (union roots2 p q) p = q := parent_set_self hlen2p
    have hqpar : parent (union roots2 p q) q = q := by
      rw [union, parent_set_other hp.1 hq.1 (fun h => hpq h.symm)]
      exact hrootq2
    constructor
    · rcases hpa2 with hpar | hap
      · by_cases happ : a = p
        · rw [happ]
          exact fix_at_one hppar hqpar
        · have hapar : parent (union roots2 p q) a = p := by
            rw [union, parent_set_other hp.1 ha.1 happ]
            exact hpar
          exact fix_at_two hapar hppar hqpar
      · rw [hap]
        exact fix_at_one hppar hqpar
    · rcases hpb2 with hpar | hbq
      · have hbpar : parent (union roots2 p q) b = q := by
          rw [union, parent_set_other hp.1 hb.1 hbp]
          exact hpar
        exact fix_at_one hbpar hqpar
      · rw [hbq]
        exact fix_at_zero hqpar
  · -- roots' = roots2 with q reparented under p
    rw [hroots', hfst]
    have hqpar : parent (union roots2 q p) q = p := parent_set_self hlen2q
    have hppar : parent (union roots2 q p) p = p := by
      rw [union, parent_set_other hq.1 hp.1 hpq]
      exact hrootp2
    constructor
    · rcases hpa2 with hpar | hap
      · by_cases happ : a = p
        · rw [happ]
          exact fix_at_zero hppar
        · have hapar : parent (union roots2 q p) a = p := by
            rw [union, parent_set_other hq.1 ha.1 haq]
            exact hpar
          exact fix_at_one hapar hppar
      · rw [hap]
        exact fix_at_zero hppar
    · rcases hpb2 with hpar | hbq
      · by_cases hbqq : b = q
        · rw [hbqq]
          exact fix_at_one hqpar hppar
        · have hbpar : parent (union roots2 q p) b = q := by
            rw [union, parent_set_other hq.1 hb.1 hbqq]
            exact hpar
          exact fix_at_two hbpar hqpar hppar
      · rw [hbq]
        exact fix_at_one hqpar hppar

theorem claim_C7_amended_witness :
    ((∃ k, k ≤ 2 ∧
      parent (wqu_union (initRoots 2) (initTreeSize 2) 1 2).1
          ((parent (wqu_union (initRoots 2) (initTreeSize 2) 1 2).1)^[k] 1) =
        (parent (wqu_union (initRoots 2) (initTreeSize 2) 1 2).1)^[k] 1) ∧
    (∃ k, k ≤ 2 ∧
      parent (wqu_union (initRoots 2) (initTreeSize 2) 1 2).1
          ((parent (wqu_union (initRoots 2) (initTreeSize 2) 1 2).1)^[k] 2) =
        (parent (wqu_union (initRoots 2) (initTreeSize 2) 1 2).1)^[k] 2)) := by
  have h := @claim_C7_amended 4 (initRoots 2) (initTreeSize 2)
    (StratInv_init Strategy.pathCompression 2) 1 2 (by decide) (by decide) 1 2
    (by decide) (by decide) (by decide)
    (wqu_union (initRoots 2) (initTreeSize 2) 1 2).1
    (wqu_union (initRoots 2) (initTreeSize 2) 1 2).2 (by decide)
  exact h

/-- Two union-find states (possibly of different strategies) induce the same
    partition of [1, space] into connectivity classes. -/
def PartEq (strat1 : Strategy) (roots1 : List Nat) (strat2 : Strategy) (roots2 : List Nat)
    (space : Nat) : Prop :=
  ∀ x y, InRange space x → InRange space y →
    (rootOf strat1 roots1 x = rootOf strat1 roots1 y ↔
      rootOf strat2 roots2 x = rootOf strat2 roots2 y)

theorem subst_join {ra rb P Q rx ry : Nat}
    (hPQ : (P = ra ∧ Q = rb) ∨ (P = rb ∧ Q = ra)) :
    ((if rx = P then Q else rx) = (if ry = P then Q else ry)) ↔
      (rx = ry ∨ (rx = ra ∧ ry = rb) ∨ (rx = rb ∧ ry = ra)) := by
  rcases hPQ with ⟨hP, hQ⟩ | ⟨hP, hQ⟩ <;> subst hP <;> subst hQ <;>
    split_ifs <;> omega

/-- A connect call joins exactly the classes of its two operands: the new
    same-root relation is the old one extended by the (a, b) merge. -/
theorem stratConnect_join {strat : Strategy} {space : Nat} {roots ts roots' ts' : List Nat}
    (hInv : StratInv strat space roots) {a b : Nat} (ha : InRange space a)
    (hb : InRange space b)
    (hconn : stratConnect strat (roots, ts) a b = some (roots', ts')) :
    StratInv strat space roots' ∧
    ∀ x y, InRange space x → InRange space y →
      (rootOf strat roots' x = rootOf strat roots' y ↔
        (rootOf strat roots x = rootOf strat roots y ∨
         (rootOf strat roots x = rootOf strat roots a ∧
          rootOf strat roots y = rootOf strat roots b) ∨
         (rootOf strat roots x = rootOf strat roots b ∧
          rootOf strat roots y = rootOf strat roots a))) := by
  obtain ⟨roots2, ts2, hconn2, hInv', _, P, Q, hPQ, heff⟩ := stratConnect_effect strat hInv ha hb
  rw [hconn] at hconn2
  have heq := Option.some_inj.mp hconn2
  injection heq with h1 h2
  subst h1
  refine ⟨hInv', ?_⟩
  intro x y hx hy
  rw [heff x hx, heff y hy]
  exact subst_join hPQ

/-- Lockstep execution of one guarded neighbor connection in two strategies:
    both succeed, both keep their invariants, and the partitions stay equal. -/
theorem guarded_connect_pair {strat1 strat2 : Strategy} {space : Nat} {board : List Nat}
    (rt1 rt2 : List Nat × List Nat) {pos nb : Nat} (c : Prop) [Decidable c]
    (hInv1 : StratInv strat1 space rt1.1) (hInv2 : StratInv strat2 space rt2.1)
    (hOC1 : OCInv space board rt1.1) (hOC2 : OCInv space board rt2.1)
    (hPE : PartEq strat1 rt1.1 strat2 rt2.1 space)
    (hpos : InRange space pos) (hposopen : is_open board pos = true)
    (hnb : c → InRange space nb ∧ is_open board nb = true) :
    ∃ rt1' rt2',
      (if c then stratConnect strat1 rt1 pos nb else some rt1) = some rt1' ∧
      (if c then stratConnect strat2 rt2 pos nb else some rt2) = some rt2' ∧
      StratInv strat1 space rt1'.1 ∧ StratInv strat2 space rt2'.1 ∧
      OCInv space board rt1'.1 ∧ OCInv space board rt2'.1 ∧
      PartEq strat1 rt1'.1 strat2 rt2'.1 space := by
  by_cases hc : c
  · simp only [if_pos hc]
    obtain ⟨hnbr, hnbo⟩ := hnb hc
    obtain ⟨roots1', ts1', hconn1, _, _⟩ := stratConnect_effect strat1 hInv1 hpos hnbr
    obtain ⟨roots2', ts2', hconn2, _, _⟩ := stratConnect_effect strat2 hInv2 hpos hnbr
    have hconn1' : stratConnect strat1 rt1 pos nb = some (roots1', ts1') := hconn1
    have hconn2' : stratConnect strat2 rt2 pos nb = some (roots2', ts2') := hconn2
    obtain ⟨hInv1', hjoin1⟩ := stratConnect_join hInv1 hpos hnbr hconn1
    obtain ⟨hInv2', hjoin2⟩ := stratConnect_join hInv2 hpos hnbr hconn2
    refine ⟨(roots1', ts1'), (roots2', ts2'), hconn1', hconn2', hInv1', hInv2',
      stratConnect_OC hInv1 hOC1 hpos hnbr hposopen hnbo hconn1,
      stratConnect_OC hInv2 hOC2 hpos hnbr hposopen hnbo hconn2, ?_⟩
    intro x y hx hy
    rw [hjoin1 x y hx hy, hjoin2 x y hx hy]
    rw [hPE x y hx hy, hPE x pos hx hpos, hPE y nb hy hnbr, hPE x nb hx hnbr,
      hPE y pos hy hpos]
  · simp only [if_neg hc]
    exact ⟨rt1, rt2, rfl, rfl, hInv1, hInv2, hOC1, hOC2, hPE⟩

/-- Lockstep execution of Board.__connect in two strategies. -/
theorem board_connect_pair {strat1 strat2 : Strategy} {size : Nat} {board : List Nat}
    (rt1 rt2 : List Nat × List Nat) {a b : Nat}
    (hInv1 : StratInv strat1 (size ^ 2) rt1.1) (hInv2 : StratInv strat2 (size ^ 2) rt2.1)
    (hOC1 : OCInv (size ^ 2) board rt1.1) (hOC2 : OCInv (size ^ 2) board rt2.1)
    (hPE : PartEq strat1 rt1.1 strat2 rt2.1 (size ^ 2))
    (ha1 : 1 ≤ a) (ha2 : a ≤ size) (hb1 : 1 ≤ b) (hb2 : b ≤ size)
    (hopen : is_open board (boardPosition size a b) = true) :
    ∃ rt1' rt2',
      board_connect strat1 size board rt1 a b (boardPosition size a b) = some rt1' ∧
      board_connect strat2 size board rt2 a b (boardPosition size a b) = some rt2' ∧
      StratInv strat1 (size ^ 2) rt1'.1 ∧ StratInv strat2 (size ^ 2) rt2'.1 ∧
      OCInv (size ^ 2) board rt1'.1 ∧ OCInv (size ^ 2) board rt2'.1 ∧
      PartEq strat1 rt1'.1 strat2 rt2'.1 (size ^ 2) := by
  obtain ⟨hpos, habove, hbelow, hleft, hright⟩ := neighbor_bounds ha1 ha2 hb1 hb2
  rw [board_connect, board_connect]
  obtain ⟨s1, s2, e1, e2, I1, I2, O1, O2, PE⟩ :=
    guarded_connect_pair rt1 rt2
      (a ≠ 1 ∧ is_open board (boardPosition size a b - size) = true)
      hInv1 hInv2 hOC1 hOC2 hPE hpos hopen (fun hc => ⟨habove hc.1, hc.2⟩)
  rw [e1, e2, Option.some_bind, Option.some_bind]
  obtain ⟨t1, t2, f1, f2, J1, J2, P1, P2, QE⟩ :=
    guarded_connect_pair s1 s2
      (a ≠ size ∧ is_open board (boardPosition size a b + size) = true)
      I1 I2 O1 O2 PE hpos hopen (fun hc => ⟨hbelow hc.1, hc.2⟩)
  rw [f1, f2, Option.some_bind, Option.some_bind]
  obtain ⟨u1, u2, g1, g2, K1, K2, Q1, Q2, RE⟩ :=
    guarded_connect_pair t1 t2
      (b ≠ 1 ∧ is_open board (boardPosition size a b - 1) = true)
      J1 J2 P1 P2 QE hpos hopen (fun hc => ⟨hleft hc.1, hc.2⟩)
  rw [g1, g2, Option.some_bind, Option.some_bind]
  obtain ⟨v1, v2, k1, k2, L1, L2, R1, R2, SE⟩ :=
    guarded_connect_pair u1 u2
      (b ≠ size ∧ is_open board (boardPosition size a b + 1) = true)
      K1 K2 Q1 Q2 RE hpos hopen (fun hc => ⟨hright hc.1, hc.2⟩)
  rw [k1, k2]
  exact ⟨v1, v2, rfl, rfl, L1, L2, R1, R2, SE⟩

theorem StratInv_rc {strat : Strategy} {space : Nat} {roots : List Nat}
    (hInv : StratInv strat space roots) : RangeClosed space roots := by
  cases strat with
  | quickFind => exact hInv.2.1
  | quickUnion => exact hInv.2.1
  | weightedQuickUnion => exact hInv.2.1
  | pathCompression => exact hInv.2.1

/-- Two Boards of different strategies behave the same: equal sizes, boards,
    counters, valid invariants, and equal partitions. -/
def SameBehavior (strat1 : Strategy) (st1 : BoardState) (strat2 : Strategy)
    (st2 : BoardState) : Prop :=
  BoardInv strat1 st1 ∧ BoardInv strat2 st2 ∧ st1.size = st2.size ∧
  st1.board = st2.board ∧ st1.open_positions = st2.open_positions ∧
  PartEq strat1 st1.roots strat2 st2.roots (st1.size ^ 2)

/-- Lockstep execution of open_gate in two strategies: the same boolean result
    and still the same behavior. -/
theorem open_gate_pair {strat1 strat2 : Strategy} {st1 st2 : BoardState}
    (hS : SameBehavior strat1 st1 strat2 st2) {a b : Nat}
    (ha1 : 1 ≤ a) (ha2 : a ≤ st1.size) (hb1 : 1 ≤ b) (hb2 : b ≤ st1.size) :
    ∃ res st1' st2', open_gate strat1 st1 a b = some (res, st1') ∧
      open_gate strat2 st2 a b = some (res, st2') ∧
      SameBehavior strat1 st1' strat2 st2' ∧ st1'.size = st1.size := by
  obtain ⟨⟨hblen1, hsInv1, hOC1⟩, ⟨hblen2, hsInv2, hOC2⟩, hsize, hboard, hcount, hPE⟩ := hS
  have hpos : InRange (st1.size ^ 2) (boardPosition st1.size a b) :=
    (neighbor_bounds ha1 ha2 hb1 hb2).1
  simp only [open_gate]
  rw [← hsize, ← hboard]
  by_cases hop : is_open st1.board (boardPosition st1.size a b) = true
  · rw [if_pos hop, if_pos hop]
    exact ⟨false, st1, st2, rfl, rfl, ⟨⟨hblen1, hsInv1, hOC1⟩, ⟨hblen2, hsInv2, hOC2⟩,
      hsize, hboard, hcount, hPE⟩, rfl⟩
  · rw [if_neg hop, if_neg hop]
    rw [← hsize] at hsInv2 hOC2
    rw [← hboard] at hOC2
    have hclosed : is_open st1.board (boardPosition st1.size a b) = false := bool_not_true hop
    set board1 := st1.board.set (boardPosition st1.size a b - 1) 1 with hboard1
    have hlt : boardPosition st1.size a b - 1 < st1.board.length := by
      rw [hblen1]
      have h1 := hpos.1
      have h2 := hpos.2
      omega
    have hOC1' : OCInv (st1.size ^ 2) board1 st1.roots :=
      OCInv_open_pos (StratInv_rc hsInv1) hOC1 hpos hblen1 hclosed
    have hOC2' : OCInv (st1.size ^ 2) board1 st2.roots :=
      OCInv_open_pos (StratInv_rc hsInv2) hOC2 hpos hblen1 hclosed
    have hopen1 : is_open board1 (boardPosition st1.size a b) = true := by
      rw [hboard1, is_open_set hpos.1 hpos.1 hlt]
      rw [if_pos rfl]
    obtain ⟨rt1', rt2', e1, e2, I1, I2, O1, O2, PE⟩ :=
      board_connect_pair (st1.roots, st1.tree_size) (st2.roots, st2.tree_size)
        hsInv1 hsInv2 hOC1' hOC2' hPE ha1 ha2 hb1 hb2 hopen1
    rw [e1, e2]
    simp only [Option.bind_eq_bind, Option.some_bind]
    refine ⟨true, _, _, rfl, rfl, ?_, rfl⟩
    refine ⟨⟨?_, I1, O1⟩, ⟨?_, I2, O2⟩, rfl, rfl, ?_, PE⟩
    · show board1.length = st1.size ^ 2
      rw [hboard1, List.length_set]
      exact hblen1
    · show board1.length = st1.size ^ 2
      rw [hboard1, List.length_set]
      exact hblen1
    · show st1.open_positions + 1 = st2.open_positions + 1
      rw [hcount]

/-- A fixed deterministic sequence of open_gate calls from a fresh Board. -/
def runMoves (strat : Strategy) (size : Nat) (moves : List (Nat × Nat)) : Option BoardState :=
  moves.foldlM (fun st m => (open_gate strat st m.1 m.2).map Prod.snd) (initBoard size)

theorem runMoves_pair {strat1 strat2 : Strategy} {size : Nat} :
    ∀ (moves : List (Nat × Nat)) (st1 st2 : BoardState),
      (∀ m ∈ moves, 1 ≤ m.1 ∧ m.1 ≤ size ∧ 1 ≤ m.2 ∧ m.2 ≤ size) →
      SameBehavior strat1 st1 strat2 st2 → st1.size = size →
      ∃ st1' st2',
        moves.foldlM (fun st m => (open_gate strat1 st m.1 m.2).map Prod.snd) st1 =
          some st1' ∧
        moves.foldlM (fun st m => (open_gate strat2 st m.1 m.2).map Prod.snd) st2 =
          some st2' ∧
        SameBehavior strat1 st1' strat2 st2' ∧ st1'.size = size := by
  intro moves
  induction moves with
  | nil =>
    intro st1 st2 _ hS hsz
    refine ⟨st1, st2, ?_, ?_, hS, hsz⟩
    · rw [List.foldlM_nil]
      rfl
    · rw [List.foldlM_nil]
      rfl
  | cons m rest ih =>
    intro st1 st2 hmv hS hsz
    obtain ⟨hm1, hm2, hm3, hm4⟩ := hmv m (List.mem_cons_self _ _)
    obtain ⟨res, st1', st2', e1, e2, hS', hsz'⟩ :=
      open_gate_pair hS hm1 (by omega) hm3 (by omega)
    obtain ⟨t1, t2, f1, f2, hS'', hsz''⟩ :=
      ih st1' st2' (fun x hx => hmv x (List.mem_cons_of_mem _ hx)) hS' (by omega)
    refine ⟨t1, t2, ?_, ?_, hS'', hsz''⟩
    · rw [List.foldlM_cons, e1]
      simp only [Option.map_some', Option.bind_eq_bind, Option.some_bind]
      exact f1
    · rw [List.foldlM_cons, e2]
      simp only [Option.map_some', Option.bind_eq_bind, Option.some_bind]
      exact f2

theorem rootOf_init (strat : Strategy) {size n : Nat} (hn : InRange (size ^ 2) n) :
    rootOf strat (initRoots size) n = n := by
  cases strat with
  | quickFind => exact parent_initRoots hn
  | quickUnion =>
    show (find_root (initRoots size) n).getD 0 = n
    rw [show find_root (initRoots size) n = some n from findRootF_self (parent_initRoots hn) _]
    rfl
  | weightedQuickUnion =>
    show (find_root (initRoots size) n).getD 0 = n
    rw [show find_root (initRoots size) n = some n from findRootF_self (parent_initRoots hn) _]
    rfl
  | pathCompression =>
    show (find_root (initRoots size) n).getD 0 = n
    rw [show find_root (initRoots size) n = some n from findRootF_self (parent_initRoots hn) _]
    rfl

theorem SameBehavior_init (strat1 strat2 : Strategy) (size : Nat) :
    SameBehavior strat1 (initBoard size) strat2 (initBoard size) := by
  refine ⟨BoardInv_init strat1 size, BoardInv_init strat2 size, rfl, rfl, rfl, ?_⟩
  intro x y hx hy
  have hx' : InRange (size ^ 2) x := hx
  have hy' : InRange (size ^ 2) y := hy
  show rootOf strat1 (initRoots size) x = rootOf strat1 (initRoots size) y ↔
    rootOf strat2 (initRoots size) x = rootOf strat2 (initRoots size) y
  rw [rootOf_init strat1 hx', rootOf_init strat1 hy', rootOf_init strat2 hx',
    rootOf_init strat2 hy']

theorem percolates_eq_of_same {strat1 strat2 : Strategy} {st1 st2 : BoardState}
    (hS : SameBehavior strat1 st1 strat2 st2) :
    percolates strat1 st1 = percolates strat2 st2 := by
  obtain ⟨hInv1, hInv2, hsize, hboard, hcount, hPE⟩ := hS
  rw [percolates_spec hInv1, percolates_spec hInv2]
  refine congrArg some ?_
  rw [decide_eq_decide, ← hsize]
  constructor
  · rintro ⟨i, hi, j, hj, hroot⟩
    exact ⟨i, hi, j, hj,
      (hPE _ _ (top_inRange hi) (bottom_inRange hj (by omega))).mp hroot⟩
  · rintro ⟨i, hi, j, hj, hroot⟩
    exact ⟨i, hi, j, hj,
      (hPE _ _ (top_inRange hi) (bottom_inRange hj (by omega))).mpr hroot⟩

/-- C3: a fixed deterministic sequence of in-bounds open_gate calls on Boards
    of the same size yields, for all four strategies, the same final value of
    percolates() and the same number_of_open_positions(), even though the
    internal roots lists differ. -/
theorem claim_C3 {size : Nat} (_hsize : 1 ≤ size) (moves : List (Nat × Nat))
    (hmv : ∀ m ∈ moves, 1 ≤ m.1 ∧ m.1 ≤ size ∧ 1 ≤ m.2 ∧ m.2 ≤ size) :
    ∃ s1 s2 s3 s4 : BoardState,
      runMoves Strategy.quickUnion size moves = some s1 ∧
      runMoves Strategy.weightedQuickUnion size moves = some s2 ∧
      runMoves Strategy.pathCompression size moves = some s3 ∧
      runMoves Strategy.quickFind size moves = some s4 ∧
      percolates Strategy.quickUnion s1 = percolates Strategy.weightedQuickUnion s2 ∧
      percolates Strategy.quickUnion s1 = percolates Strategy.pathCompression s3 ∧
      percolates Strategy.quickUnion s1 = percolates Strategy.quickFind s4 ∧
      number_of_open_positions s1 = number_of_open_positions s2 ∧
      number_of_open_positions s1 = number_of_open_positions s3 ∧
      number_of_open_positions s1 = number_of_open_positions s4 := by
  obtain ⟨s1, s2, e1, e2, hS12, _⟩ := runMoves_pair moves (initBoard size) (initBoard size)
    hmv (SameBehavior_init Strategy.quickUnion Strategy.weightedQuickUnion size) rfl
  obtain ⟨s1', s3, e1', e3, hS13, _⟩ := runMoves_pair moves (initBoard size) (initBoard size)
    hmv (SameBehavior_init Strategy.quickUnion Strategy.pathCompression size) rfl
  obtain ⟨s1'', s4, e1'', e4, hS14, _⟩ := runMoves_pair moves (initBoard size) (initBoard size)
    hmv (SameBehavior_init Strategy.quickUnion Strategy.quickFind size) rfl
  rw [e1] at e1' e1''
  have h13 : s1' = s1 := (Option.some_inj.mp e1').symm
  have h14 : s1'' = s1 := (Option.some_inj.mp e1'').symm
  rw [h13] at hS13
  rw [h14] at hS14
  exact ⟨s1, s2, s3, s4, e1, e2, e3, e4,
    percolates_eq_of_same hS12, percolates_eq_of_same hS13, percolates_eq_of_same hS14,
    hS12.2.2.2.2.1, hS13.2.2.2.2.1, hS14.2.2.2.2.1⟩

theorem claim_C3_witness :
    ∃ s1 s2 s3 s4 : BoardState,
      runMoves Strategy.quickUnion 2 [(1, 1), (2, 1)] = some s1 ∧
      runMoves Strategy.weightedQuickUnion 2 [(1, 1), (2, 1)] = some s2 ∧
      runMoves Strategy.pathCompression 2 [(1, 1), (2, 1)] = some s3 ∧
      runMoves Strategy.quickFind 2 [(1, 1), (2, 1)] = some s4 ∧
      percolates Strategy.quickUnion s1 = percolates Strategy.weightedQuickUnion s2 ∧
      percolates Strategy.quickUnion s1 = percolates Strategy.pathCompression s3 ∧
      percolates Strategy.quickUnion s1 = percolates Strategy.quickFind s4 ∧
      number_of_open_positions s1 = number_of_open_positions s2 ∧
      number_of_open_positions s1 = number_of_open_positions s3 ∧
      number_of_open_positions s1 = number_of_open_positions s4 :=
  claim_C3 (by decide) [(1, 1), (2, 1)] (by decide)

end Percolation
